import Mathlib

/-!
Verification of the ordered-collection maintenance engine and the
fuzzy-match suggestion engine of the Koffan shopping-list manager.

The relational store is embedded shallowly: each table is a `List` of row
structures, SQL `UPDATE` statements become `List.map`, `SELECT ... WHERE`
becomes `List.filter`, `ORDER BY sort_order ASC` becomes a stable insertion
sort, and a transaction that can fail to locate a row returns `Option`
(`none` models the rolled-back, state-unchanged error outcome).
Go `int` columns become `Int`; Go strings become `List Char`.
-/

/-- Row of the `lists` table (fields relevant to ordering and activation). -/
structure LRow where
  id : Int
  sortOrder : Int
  isActive : Bool
deriving DecidableEq, Repr

/-- Row of the `sections` table. -/
structure SRow where
  id : Int
  listId : Int
  sortOrder : Int
deriving DecidableEq, Repr

/-- Row of the `items` table (fields relevant to ordering). -/
structure IRow where
  id : Int
  sectionId : Int
  completed : Bool
  sortOrder : Int
deriving DecidableEq, Repr

/-- Fold computing `max` of two `Int`s, used to model SQL `MAX`. -/
def intMax (a b : Int) : Int := if a < b then b else a

/-- Models `COALESCE(MAX(col), d)` over a list of values. -/
def maxOrderD (d : Int) (vals : List Int) : Int := vals.foldl intMax d

/-- Models SQL `MAX(col)` (NULL, i.e. `none`, on an empty table). -/
def sqlMaxInt : List Int → Option Int
  | [] => none
  | v :: vs => some (vs.foldl intMax v)

/-- Stable insertion of an item row into a list ascending by `sortOrder`
(models the deterministic part of `ORDER BY sort_order ASC`). -/
def insAscItem (x : IRow) : List IRow → List IRow
  | [] => [x]
  | y :: ys => if y.sortOrder < x.sortOrder then y :: insAscItem x ys else x :: y :: ys

/-- Stable sort of item rows ascending by `sortOrder`. -/
def sortAscItems : List IRow → List IRow
  | [] => []
  | x :: xs => insAscItem x (sortAscItems xs)

/-- Models `UPDATE items SET sort_order = v WHERE id = tid`. -/
def setOrder (st : List IRow) (tid : Int) (v : Int) : List IRow :=
  st.map (fun r => if r.id == tid then { r with sortOrder := v } else r)

/-- Models `SELECT ... ORDER BY sort_order DESC LIMIT 1`: the first row
attaining the maximal `sortOrder`. -/
def pickMaxBySort : List IRow → Option IRow
  | [] => none
  | r :: rs => match pickMaxBySort rs with
    | none => some r
    | some m => if m.sortOrder > r.sortOrder then some m else some r

/-- Models `SELECT ... ORDER BY sort_order ASC LIMIT 1`: the first row
attaining the minimal `sortOrder`. -/
def pickMinBySort : List IRow → Option IRow
  | [] => none
  | r :: rs => match pickMinBySort rs with
    | none => some r
    | some m => if m.sortOrder < r.sortOrder then some m else some r

/-- Embeds `MoveListUp`: read the list's order; no-op at order 0; otherwise
bump any list sitting at `current-1` and write the moved list to
`current-1`.  `none` models the not-found error (transaction rolled back). -/
def MoveListUp (lists : List LRow) (id : Int) : Option (List LRow) :=
  match lists.find? (fun r => r.id == id) with
  | none => none
  | some l =>
    if l.sortOrder == 0 then some lists
    else
      let s1 := lists.map (fun r =>
        if r.sortOrder == l.sortOrder - 1 then { r with sortOrder := r.sortOrder + 1 } else r)
      some (s1.map (fun r =>
        if r.id == id then { r with sortOrder := l.sortOrder - 1 } else r))

/-- Embeds `MoveListDown`: read the order and the table max; no-op when
already at the max; otherwise pull any list at `current+1` down and write
the moved list to `current+1`. -/
def MoveListDown (lists : List LRow) (id : Int) : Option (List LRow) :=
  match lists.find? (fun r => r.id == id) with
  | none => none
  | some l =>
    match sqlMaxInt (lists.map (·.sortOrder)) with
    | none => none
    | some maxOrder =>
      if l.sortOrder ≥ maxOrder then some lists
      else
        let s1 := lists.map (fun r =>
          if r.sortOrder == l.sortOrder + 1 then { r with sortOrder := r.sortOrder - 1 } else r)
        some (s1.map (fun r =>
          if r.id == id then { r with sortOrder := l.sortOrder + 1 } else r))

/-- Embeds `MoveSectionUp` (same scheme as `MoveListUp`, scoped to the
section's owning list). -/
def MoveSectionUp (secs : List SRow) (id : Int) : Option (List SRow) :=
  match secs.find? (fun r => r.id == id) with
  | none => none
  | some s =>
    if s.sortOrder == 0 then some secs
    else
      let s1 := secs.map (fun r =>
        if r.sortOrder == s.sortOrder - 1 && r.listId == s.listId then
          { r with sortOrder := r.sortOrder + 1 } else r)
      some (s1.map (fun r =>
        if r.id == id then { r with sortOrder := s.sortOrder - 1 } else r))

/-- Embeds `MoveSectionDown` (same scheme as `MoveListDown`, scoped to the
section's owning list). -/
def MoveSectionDown (secs : List SRow) (id : Int) : Option (List SRow) :=
  match secs.find? (fun r => r.id == id) with
  | none => none
  | some s =>
    match sqlMaxInt ((secs.filter (fun r => r.listId == s.listId)).map (·.sortOrder)) with
    | none => none
    | some maxOrder =>
      if s.sortOrder ≥ maxOrder then some secs
      else
        let s1 := secs.map (fun r =>
          if r.sortOrder == s.sortOrder + 1 && r.listId == s.listId then
            { r with sortOrder := r.sortOrder - 1 } else r)
        some (s1.map (fun r =>
          if r.id == id then { r with sortOrder := s.sortOrder + 1 } else r))

/-- Embeds `MoveItemUp`: find the sibling with the closest smaller
`sort_order` (tolerating gaps) and swap the two `sort_order` values;
no-op when no such sibling exists. -/
def MoveItemUp (items : List IRow) (id : Int) : Option (List IRow) :=
  match items.find? (fun r => r.id == id) with
  | none => none
  | some it =>
    match pickMaxBySort (items.filter (fun r =>
        r.sectionId == it.sectionId && r.sortOrder < it.sortOrder)) with
    | none => some items
    | some prev =>
      let s1 := items.map (fun r =>
        if r.id == prev.id then { r with sortOrder := it.sortOrder } else r)
      some (s1.map (fun r =>
        if r.id == id then { r with sortOrder := prev.sortOrder } else r))

/-- Embeds `MoveItemDown`: find the sibling with the closest larger
`sort_order` and swap the two `sort_order` values; no-op at the bottom. -/
def MoveItemDown (items : List IRow) (id : Int) : Option (List IRow) :=
  match items.find? (fun r => r.id == id) with
  | none => none
  | some it =>
    match pickMinBySort (items.filter (fun r =>
        r.sectionId == it.sectionId && r.sortOrder > it.sortOrder)) with
    | none => some items
    | some next =>
      let s1 := items.map (fun r =>
        if r.id == next.id then { r with sortOrder := it.sortOrder } else r)
      some (s1.map (fun r =>
        if r.id == id then { r with sortOrder := next.sortOrder } else r))

/-- Embeds `SetActiveList`: deactivate every list, then activate the row
with the given id (the transaction commits regardless of whether such a
row exists). -/
def SetActiveList (lists : List LRow) (id : Int) : List LRow :=
  (lists.map (fun r => { r with isActive := false })).map
    (fun r => if r.id == id then { r with isActive := true } else r)

/-- Embeds `DeleteItem`: `DELETE FROM items WHERE id = ?` (succeeds whether
or not a row matched). -/
def DeleteItem (items : List IRow) (id : Int) : List IRow :=
  items.filter (fun r => r.id != id)

/-- Computes the target `sort_order` for a cross-section move, from the
destination's active (incomplete) items sorted ascending and the
`COALESCE(MAX(sort_order), -1)` over all destination items. -/
def targetOrderOf (active : List IRow) (pos : Int) (allMax : Int) : Int :=
  match active with
  | [] => allMax + 1
  | a :: rest =>
    if pos ≤ 0 then a.sortOrder
    else if pos ≥ Int.ofNat (a :: rest).length then ((a :: rest).getLastD a).sortOrder + 1
    else ((a :: rest).getD pos.toNat a).sortOrder

/-- The inner renumbering loop of `reorderItemInSection`: walks the other
active items in ascending order carrying the loop index and the next free
order value, inserting the moved item's update when the index hits the
target position.  Mirrors the sequence of `UPDATE` statements issued. -/
def reorderLoop (movedId : Int) (p : Nat) :
    List IRow → Nat → Nat → List IRow → List IRow × Nat
  | [], _, no, st => (st, no)
  | r :: rs, i, no, st =>
    if i == p then
      reorderLoop movedId p rs (i+1) (no+2)
        (setOrder (setOrder st movedId (Int.ofNat no)) r.id (Int.ofNat (no+1)))
    else
      reorderLoop movedId p rs (i+1) (no+1) (setOrder st r.id (Int.ofNat no))

/-- Embeds `reorderItemInSection`: clamp the target position to the range
of active (incomplete) siblings, renumber all of them densely with the
moved item inserted at the clamped position. -/
def reorderItemInSection (items : List IRow) (id : Int) (targetPosition : Int) :
    Option (List IRow) :=
  match items.find? (fun r => r.id == id) with
  | none => none
  | some it =>
    let others := sortAscItems (items.filter (fun r =>
      r.sectionId == it.sectionId && !r.completed && r.id != id))
    let len : Int := Int.ofNat others.length
    let tp0 := if targetPosition < 0 then 0 else targetPosition
    let tp := if tp0 > len then len else tp0
    let p : Nat := tp.toNat
    let res := reorderLoop id p others 0 0 items
    some (if p ≥ others.length then setOrder res.1 id (Int.ofNat res.2) else res.1)

/-- Embeds `MoveItemToSectionAtPosition`: same-section calls degrade to
`reorderItemInSection`; otherwise compute the target order from the
destination's active items, shift every destination row with
`sort_order >= target` up by one, and write the moved item into the
destination at the target order. -/
def MoveItemToSectionAtPosition (items : List IRow) (id newSectionID : Int)
    (targetPosition : Int) : Option (List IRow) :=
  match items.find? (fun r => r.id == id) with
  | none => none
  | some it =>
    if it.sectionId == newSectionID then reorderItemInSection items id targetPosition
    else
      let active := sortAscItems (items.filter (fun r =>
        r.sectionId == newSectionID && !r.completed))
      let allMax := maxOrderD (-1)
        ((items.filter (fun r => r.sectionId == newSectionID)).map (·.sortOrder))
      let tgt := targetOrderOf active targetPosition allMax
      let s1 := items.map (fun r =>
        if r.sectionId == newSectionID && r.sortOrder ≥ tgt then
          { r with sortOrder := r.sortOrder + 1 } else r)
      some (s1.map (fun r =>
        if r.id == id then { r with sectionId := newSectionID, sortOrder := tgt } else r))

/-! ### Suggestion engine: strings, edit distance, scoring -/

/-- Models Go `strings.ToLower` on a string viewed as a character list. -/
def toLowerStr (s : List Char) : List Char := s.map Char.toLower

/-- Models Go `strings.HasPrefix s pat` (does `s` start with `pat`). -/
def hasPre : List Char → List Char → Bool
  | _, [] => true
  | [], _ :: _ => false
  | c :: cs, p :: ps => c == p && hasPre cs ps

/-- Models Go `strings.Contains s sub`. -/
def hasSub : List Char → List Char → Bool
  | [], sub => sub.isEmpty
  | c :: cs, sub => hasPre (c :: cs) sub || hasSub cs sub

/-- ASCII whitespace recognised by the field splitter. -/
def isSpaceChar (c : Char) : Bool :=
  c == ' ' || c == '\t' || c == '\n' || c == '\r' || c == '\x0b' || c == '\x0c'

/-- Accumulating splitter behind `fieldsOf`. -/
def fieldsAux : List Char → List Char → List (List Char)
  | [], acc => if acc.isEmpty then [] else [acc.reverse]
  | c :: cs, acc =>
    if isSpaceChar c then
      if acc.isEmpty then fieldsAux cs [] else acc.reverse :: fieldsAux cs []
    else fieldsAux cs (c :: acc)

/-- Models Go `strings.Fields`: whitespace-delimited words, no empties. -/
def fieldsOf (s : List Char) : List (List Char) := fieldsAux s []

/-- Substitution cost used by the distance matrix. -/
def levCost (a b : Char) : Nat := if a == b then 0 else 1

/-- One row-step of the edit-distance matrix: given the character `x` of the
first string, the remaining second string, the rest of the previous row,
the diagonal entry and the entry just computed to the left, produce the
rest of the current row. -/
def levAux (x : Char) : List Char → List Nat → Nat → Nat → List Nat
  | [], _, _, _ => []
  | _ :: _, [], _, _ => []
  | y :: ys, p :: ps, diag, left =>
    let v := min (p + 1) (min (left + 1) (diag + levCost x y))
    v :: levAux x ys ps p v

/-- Computes matrix row `rowIdx` from the previous row (the row starts with
its boundary entry `rowIdx`, matching `matrix[i][0] = i`). -/
def nextRow (x : Char) (s2 : List Char) (prev : List Nat) (rowIdx : Nat) : List Nat :=
  match prev with
  | [] => []
  | d :: ps => rowIdx :: levAux x s2 ps d rowIdx

/-- Folds `nextRow` over the characters of the first string, carrying the
current row index. -/
def levRows (s2 : List Char) : List Char → List Nat → Nat → List Nat
  | [], row, _ => row
  | x :: xs, row, i => levRows s2 xs (nextRow x s2 row (i+1)) (i+1)

/-- Embeds `levenshteinDistance`: lower-case both strings, handle the empty
cases, then fill the dynamic-programming matrix row by row and read off
the final entry `matrix[len s1][len s2]`. -/
def levenshteinDistance (s1 s2 : List Char) : Nat :=
  let a := toLowerStr s1
  let b := toLowerStr s2
  if a.isEmpty then b.length
  else if b.isEmpty then a.length
  else (levRows b a (List.range (b.length + 1)) 0).getD b.length 0

/-- The word loop of `scoreSuggestion`: return the distance of the first
whitespace-delimited word within `maxD` of the query, if any. -/
def wordLoop (maxD : Nat) (q : List Char) : List (List Char) → Option Nat
  | [] => none
  | w :: ws =>
    let d := levenshteinDistance w q
    if d ≤ maxD then some d else wordLoop maxD q ws

/-- Embeds `scoreSuggestion`: exact 1000, front match 500, substring 200,
then (for queries of length at least 3) full-name distance within
`len(query)/2` scoring `100 - 20*d`, then the first word within range
scoring `80 - 15*d`, else 0. -/
def scoreSuggestion (name query : List Char) : Int :=
  let nameLower := toLowerStr name
  let queryLower := toLowerStr query
  if nameLower == queryLower then 1000
  else if hasPre nameLower queryLower then 500
  else if hasSub nameLower queryLower then 200
  else if query.length ≥ 3 then
    let distance := levenshteinDistance nameLower queryLower
    let maxDistance := query.length / 2
    if distance ≤ maxDistance then (100 : Int) - Int.ofNat distance * 20
    else match wordLoop maxDistance queryLower (fieldsOf nameLower) with
      | some wd => (80 : Int) - Int.ofNat wd * 15
      | none => 0
  else 0

/-- A history row as fetched for suggestions (`ItemSuggestion` plus the
usage count used for scoring and tie-breaks). -/
structure HistRow where
  name : List Char
  lastSectionId : Int
  usageCount : Nat
deriving DecidableEq, Repr

/-- Comparison used by the suggestion sort: score descending, then usage
count descending. -/
def scoredBefore (a b : HistRow × Int) : Bool :=
  if a.2 != b.2 then a.2 > b.2 else a.1.usageCount > b.1.usageCount

/-- Insertion step of the suggestion sort. -/
def insScored (x : HistRow × Int) : List (HistRow × Int) → List (HistRow × Int)
  | [] => [x]
  | y :: ys => if scoredBefore x y then x :: y :: ys else y :: insScored x ys

/-- Sorts scored suggestions by score descending then usage descending. -/
def sortScored : List (HistRow × Int) → List (HistRow × Int)
  | [] => []
  | x :: xs => insScored x (sortScored xs)

/-- Embeds `GetItemSuggestions` over a prefetched candidate pool: default
the limit to 10, keep candidates with positive score boosted by
`usage_count / 10`, sort, and take the first `limit`. -/
def GetItemSuggestions (query : List Char) (limit : Int) (pool : List HistRow) :
    List HistRow :=
  let lim := if limit ≤ 0 then 10 else limit
  let scored := pool.filterMap (fun s =>
    let sc := scoreSuggestion s.name query
    if sc > 0 then some (s, sc + Int.ofNat (s.usageCount / 10)) else none)
  ((sortScored scored).map Prod.fst).take lim.toNat

/-- Embeds `GetAllItemSuggestions`: default the limit to 100 and return the
first `limit` history rows in their stored order (usage descending then
recency, as delivered by the store). -/
def GetAllItemSuggestions (limit : Int) (rows : List HistRow) : List HistRow :=
  rows.take (if limit ≤ 0 then (100 : Int) else limit).toNat

/-- Embeds the HTTP handler `GetSuggestions`' routing: an empty query is
served from the bulk mode, any other query from the scored mode. -/
def GetSuggestionsRoute (query : List Char) (limit : Int)
    (pool rows : List HistRow) : List HistRow :=
  if query.isEmpty then GetAllItemSuggestions limit rows
  else GetItemSuggestions query limit pool

/-! ### Item history upserts -/

/-- Row of the `item_history` table.  `lastUsedAt` is `none` when the
column was never written. -/
structure HistEntry where
  name : List Char
  lastSectionId : Int
  usageCount : Nat
  lastUsedAt : Option Int
deriving DecidableEq, Repr

/-- SQLite `NOCASE` collation folds ASCII letters only. -/
def nocaseFold (s : List Char) : List Char :=
  s.map (fun c => if 'A' ≤ c && c ≤ 'Z' then Char.ofNat (c.toNat + 32) else c)

/-- Case-insensitive name identity under the `NOCASE` collation. -/
def nocaseEq (a b : List Char) : Bool := nocaseFold a == nocaseFold b

/-- Embeds `SaveItemHistory`: upsert keyed on `name COLLATE NOCASE`,
incrementing `usage_count` and overwriting the last-used section and
timestamp on conflict. -/
def SaveItemHistory (now : Int) (tbl : List HistEntry) (name : List Char)
    (sectionID : Int) : List HistEntry :=
  if (tbl.find? (fun e => nocaseEq e.name name)).isSome then
    tbl.map (fun e =>
      if nocaseEq e.name name then
        { e with lastSectionId := sectionID, usageCount := e.usageCount + 1,
                 lastUsedAt := some now }
      else e)
  else tbl ++ [⟨name, sectionID, 1, some now⟩]

/-- Embeds `SaveItemHistoryTx` as written: the conflict target is the bare
`name` column (no `NOCASE`), and `last_used_at` is never assigned. -/
def SaveItemHistoryTx (tbl : List HistEntry) (name : List Char)
    (sectionID : Int) : List HistEntry :=
  if (tbl.find? (fun e => e.name == name)).isSome then
    tbl.map (fun e =>
      if e.name == name then
        { e with lastSectionId := sectionID, usageCount := e.usageCount + 1 }
      else e)
  else tbl ++ [⟨name, sectionID, 1, none⟩]

/-! ### Helper predicates and spec-side definitions -/

/-- Character list of a string literal (for concrete test inputs). -/
def chars (x : String) : List Char := x.toList

/-- The `sort_order` values of the incomplete items of a section. -/
def incompleteOrders (items : List IRow) (sid : Int) : List Int :=
  (items.filter (fun r => r.sectionId == sid && !r.completed)).map (·.sortOrder)

/-- Dense renumbering: the values are a permutation of `0..n-1`. -/
def denseOrders (l : List Int) : Prop :=
  l.Perm ((List.range l.length).map Int.ofNat)

instance (l : List Int) : Decidable (denseOrders l) := by
  unfold denseOrders
  infer_instance

/-- Smallest edit distance between the query and any single word. -/
def minWordDist (q : List Char) : List (List Char) → Option Nat
  | [] => none
  | w :: ws =>
    let d := levenshteinDistance w q
    match minWordDist q ws with
    | none => some d
    | some m => some (Nat.min d m)

/-- Modelled from the claim's words (for comparison with `scoreSuggestion`):
identical to the code's scoring except that the word-level fallback uses
the best (smallest) per-word edit distance. -/
def claimScore (name query : List Char) : Int :=
  let nameLower := toLowerStr name
  let queryLower := toLowerStr query
  if nameLower == queryLower then 1000
  else if hasPre nameLower queryLower then 500
  else if hasSub nameLower queryLower then 200
  else if query.length ≥ 3 then
    let d := levenshteinDistance nameLower queryLower
    let maxD := query.length / 2
    if d ≤ maxD then 100 - Int.ofNat d * 20
    else match minWordDist queryLower (fieldsOf nameLower) with
      | some w => if w ≤ maxD then 80 - Int.ofNat w * 15 else 0
      | none => 0
  else 0

/-- Number of active lists. -/
def activeCount (lists : List LRow) : Nat :=
  (lists.filter (fun r => r.isActive)).length

/-! ### Concrete refutations and the history-path divergence -/

/-- C1: refuted as stated.  Moving item 1 from section 1 into section 2 at
position 0, where section 2 holds incomplete items at orders 0 and 5,
succeeds and leaves section 2's incomplete orders at `[0, 1, 6]` — not a
contiguous `0..2` block, because the cross-section path shifts instead of
renumbering. -/
theorem c1_cross_section_move_not_dense :
    MoveItemToSectionAtPosition
        [⟨1, 1, false, 0⟩, ⟨2, 2, false, 0⟩, ⟨3, 2, false, 5⟩] 1 2 0 =
      some [⟨1, 2, false, 0⟩, ⟨2, 2, false, 1⟩, ⟨3, 2, false, 6⟩] ∧
    ¬ denseOrders (incompleteOrders
        [⟨1, 2, false, 0⟩, ⟨2, 2, false, 1⟩, ⟨3, 2, false, 6⟩] 2) := by
  constructor
  · rfl
  · decide

/-- C2: refuted as stated.  With lists at orders 0 and 5, moving list 2 up
should (per the claim) swap with the nearest smaller sibling, giving
orders 5 and 0; the code instead decrements list 2 to order 4 and touches
no other row. -/
theorem c2_list_gap_not_swapped :
    MoveListUp [⟨1, 0, false⟩, ⟨2, 5, false⟩] 2 =
      some [⟨1, 0, false⟩, ⟨2, 4, false⟩] ∧
    (some [⟨1, 0, false⟩, ⟨2, 4, false⟩] : Option (List LRow)) ≠
      some [⟨1, 5, false⟩, ⟨2, 0, false⟩] := by
  constructor
  · rfl
  · decide

/-- C3: refuted as stated.  For name "abxy abcx" and query "abcd" the word
distances are 2 and 1; the code returns `80 - 15*2 = 50` for the first
qualifying word, while the claim's best-word formula gives
`80 - 15*1 = 65`.  Moreover a negative base score (full-name distance 6
for a 12-character query) is excluded even when the claim's usage boost
would make the final score positive. -/
theorem c3_first_word_not_best_word :
    scoreSuggestion (chars "abxy abcx") (chars "abcd") = 50 ∧
    claimScore (chars "abxy abcx") (chars "abcd") = 65 ∧
    (50 : Int) ≠ 65 ∧
    scoreSuggestion (chars "abcdef") (chars "abcdefghijkl") = -20 ∧
    GetItemSuggestions (chars "abcdefghijkl") 10 [⟨chars "abcdef", 1, 300⟩] = [] := by
  refine ⟨by decide, by decide, by decide, by decide, by decide⟩

/-- C5: refuted as stated.  `SetActiveList` invoked with the id 2 of no
existing list commits successfully and deactivates list 1 (state changed,
no Not-Found); `DeleteItem` on a missing id likewise reports success. -/
theorem c5_missing_id_reports_success :
    SetActiveList [⟨1, 0, true⟩] 2 = [⟨1, 0, false⟩] ∧
    ([⟨1, 0, false⟩] : List LRow) ≠ [⟨1, 0, true⟩] ∧
    DeleteItem [⟨1, 1, false, 0⟩] 99 = [⟨1, 1, false, 0⟩] := by
  refine ⟨by decide, by decide, by decide⟩

/-- C6: refuted as stated.  `SetActiveList 2` on a store whose only list is
list 1 (active) completes successfully, yet afterwards a list exists and
no list is active. -/
theorem c6_missing_id_breaks_singleton :
    SetActiveList [⟨1, 0, true⟩] 2 = [⟨1, 0, false⟩] ∧
    activeCount (SetActiveList [⟨1, 0, true⟩] 2) = 0 ∧
    (SetActiveList [⟨1, 0, true⟩] 2).length = 1 := by
  refine ⟨by decide, by decide, by decide⟩

/-- C7: the batch write path diverges from the specified case-insensitive
upsert.  Saving "milk" then "MILK" through `SaveItemHistoryTx` yields two
history rows with no timestamp ever written, whereas the direct
`SaveItemHistory` path yields a single row with usage count 2 and the
timestamp overwritten, exactly as the claim demands. -/
theorem c7_history_tx_divergence :
    SaveItemHistoryTx (SaveItemHistoryTx [] (chars "milk") 7) (chars "MILK") 7 =
      [⟨chars "milk", 7, 1, none⟩, ⟨chars "MILK", 7, 1, none⟩] ∧
    SaveItemHistory 20 (SaveItemHistory 10 [] (chars "milk") 7) (chars "MILK") 8 =
      [⟨chars "milk", 8, 2, some 20⟩] := by
  refine ⟨by decide, by decide⟩

/-- C8: refuted as stated.  A sibling group whose first list sits at order
1 (a gap at the bottom): moving it up succeeds but rewrites its order to
0, so the sort orders do not all stay unchanged. -/
theorem c8_first_with_gap_changes_order :
    MoveListUp [⟨1, 1, false⟩] 1 = some [⟨1, 0, false⟩] ∧
    (some [⟨1, 0, false⟩] : Option (List LRow)) ≠ some [⟨1, 1, false⟩] := by
  constructor
  · rfl
  · decide

/-! ### Basic lemmas about the SQL-modelling helpers -/

theorem le_intMax_left (a b : Int) : a ≤ intMax a b := by
  unfold intMax; split <;> omega

theorem le_intMax_right (a b : Int) : b ≤ intMax a b := by
  unfold intMax; split <;> omega

theorem acc_le_foldl_intMax (vals : List Int) : ∀ acc : Int, acc ≤ vals.foldl intMax acc := by
  induction vals with
  | nil => intro acc; simp
  | cons v vs ih =>
    intro acc
    calc acc ≤ intMax acc v := le_intMax_left acc v
    _ ≤ vs.foldl intMax (intMax acc v) := ih (intMax acc v)

theorem mem_le_foldl_intMax (vals : List Int) :
    ∀ (acc x : Int), x ∈ vals → x ≤ vals.foldl intMax acc := by
  induction vals with
  | nil => intro acc x hx; cases hx
  | cons v vs ih =>
    intro acc x hx
    rcases List.mem_cons.mp hx with h | h
    · subst h
      calc x ≤ intMax acc x := le_intMax_right acc x
      _ ≤ vs.foldl intMax (intMax acc x) := acc_le_foldl_intMax vs (intMax acc x)
    · exact ih (intMax acc v) x h

theorem foldl_intMax_mem (vals : List Int) :
    ∀ acc : Int, vals.foldl intMax acc = acc ∨ vals.foldl intMax acc ∈ vals := by
  induction vals with
  | nil => intro acc; left; rfl
  | cons v vs ih =>
    intro acc
    rcases ih (intMax acc v) with h | h
    · rw [List.foldl_cons, h]
      unfold intMax
      split
      · right; exact List.mem_cons_self v vs
      · left; rfl
    · right; exact List.mem_cons_of_mem v h

theorem sqlMaxInt_ge {vals : List Int} {m : Int} (h : sqlMaxInt vals = some m) :
    ∀ x ∈ vals, x ≤ m := by
  match vals with
  | [] => simp [sqlMaxInt] at h
  | v :: vs =>
    simp only [sqlMaxInt, Option.some.injEq] at h
    intro x hx
    rcases List.mem_cons.mp hx with h1 | h1
    · subst h1; rw [← h]; exact acc_le_foldl_intMax vs x
    · rw [← h]; exact mem_le_foldl_intMax vs v x h1

theorem sqlMaxInt_mem {vals : List Int} {m : Int} (h : sqlMaxInt vals = some m) : m ∈ vals := by
  match vals with
  | [] => simp [sqlMaxInt] at h
  | v :: vs =>
    simp only [sqlMaxInt, Option.some.injEq] at h
    rcases foldl_intMax_mem vs v with h1 | h1
    · rw [← h, h1]; exact List.mem_cons_self v vs
    · rw [← h]; exact List.mem_cons_of_mem v h1

theorem pickMaxBySort_cons_some (r : IRow) (rs : List IRow) :
    ∃ m, pickMaxBySort (r :: rs) = some m := by
  simp only [pickMaxBySort]
  cases pickMaxBySort rs with
  | none => exact ⟨r, rfl⟩
  | some m' =>
    by_cases hc : m'.sortOrder > r.sortOrder
    · exact ⟨m', if_pos hc⟩
    · exact ⟨r, if_neg hc⟩

theorem pickMaxBySort_mem : ∀ {l : List IRow} {m : IRow}, pickMaxBySort l = some m → m ∈ l := by
  intro l
  induction l with
  | nil => intro m h; simp [pickMaxBySort] at h
  | cons r rs ih =>
    intro m h
    cases hrec : pickMaxBySort rs with
    | none =>
      simp only [pickMaxBySort, hrec, Option.some.injEq] at h
      subst h; exact List.mem_cons_self r rs
    | some m' =>
      simp only [pickMaxBySort, hrec] at h
      by_cases hc : m'.sortOrder > r.sortOrder
      · rw [if_pos hc, Option.some.injEq] at h; subst h
        exact List.mem_cons_of_mem r (ih hrec)
      · rw [if_neg hc, Option.some.injEq] at h; subst h
        exact List.mem_cons_self r rs

theorem pickMaxBySort_ge :
    ∀ {l : List IRow} {m : IRow}, pickMaxBySort l = some m →
      ∀ r ∈ l, r.sortOrder ≤ m.sortOrder := by
  intro l
  induction l with
  | nil => intro m h; simp [pickMaxBySort] at h
  | cons r rs ih =>
    intro m h x hx
    cases hrec : pickMaxBySort rs with
    | none =>
      simp only [pickMaxBySort, hrec, Option.some.injEq] at h
      subst h
      rcases List.mem_cons.mp hx with h1 | h1
      · subst h1; omega
      · cases rs with
        | nil => cases h1
        | cons a as =>
          obtain ⟨m2, hm2⟩ := pickMaxBySort_cons_some a as
          rw [hm2] at hrec; cases hrec
    | some m' =>
      simp only [pickMaxBySort, hrec] at h
      by_cases hc : m'.sortOrder > r.sortOrder
      · rw [if_pos hc, Option.some.injEq] at h; subst h
        rcases List.mem_cons.mp hx with h1 | h1
        · subst h1; omega
        · exact ih hrec x h1
      · rw [if_neg hc, Option.some.injEq] at h; subst h
        rcases List.mem_cons.mp hx with h1 | h1
        · subst h1; omega
        · have := ih hrec x h1; omega

theorem pickMinBySort_cons_some (r : IRow) (rs : List IRow) :
    ∃ m, pickMinBySort (r :: rs) = some m := by
  simp only [pickMinBySort]
  cases pickMinBySort rs with
  | none => exact ⟨r, rfl⟩
  | some m' =>
    by_cases hc : m'.sortOrder < r.sortOrder
    · exact ⟨m', if_pos hc⟩
    · exact ⟨r, if_neg hc⟩

theorem pickMinBySort_mem : ∀ {l : List IRow} {m : IRow}, pickMinBySort l = some m → m ∈ l := by
  intro l
  induction l with
  | nil => intro m h; simp [pickMinBySort] at h
  | cons r rs ih =>
    intro m h
    cases hrec : pickMinBySort rs with
    | none =>
      simp only [pickMinBySort, hrec, Option.some.injEq] at h
      subst h; exact List.mem_cons_self r rs
    | some m' =>
      simp only [pickMinBySort, hrec] at h
      by_cases hc : m'.sortOrder < r.sortOrder
      · rw [if_pos hc, Option.some.injEq] at h; subst h
        exact List.mem_cons_of_mem r (ih hrec)
      · rw [if_neg hc, Option.some.injEq] at h; subst h
        exact List.mem_cons_self r rs

theorem pickMinBySort_le :
    ∀ {l : List IRow} {m : IRow}, pickMinBySort l = some m →
      ∀ r ∈ l, m.sortOrder ≤ r.sortOrder := by
  intro l
  induction l with
  | nil => intro m h; simp [pickMinBySort] at h
  | cons r rs ih =>
    intro m h x hx
    cases hrec : pickMinBySort rs with
    | none =>
      simp only [pickMinBySort, hrec, Option.some.injEq] at h
      subst h
      rcases List.mem_cons.mp hx with h1 | h1
      · subst h1; omega
      · cases rs with
        | nil => cases h1
        | cons a as =>
          obtain ⟨m2, hm2⟩ := pickMinBySort_cons_some a as
          rw [hm2] at hrec; cases hrec
    | some m' =>
      simp only [pickMinBySort, hrec] at h
      by_cases hc : m'.sortOrder < r.sortOrder
      · rw [if_pos hc, Option.some.injEq] at h; subst h
        rcases List.mem_cons.mp hx with h1 | h1
        · subst h1; omega
        · exact ih hrec x h1
      · rw [if_neg hc, Option.some.injEq] at h; subst h
        rcases List.mem_cons.mp hx with h1 | h1
        · subst h1; omega
        · have := ih hrec x h1; omega

/-- In a table whose key column has no duplicates, filtering on the key of
a present row returns exactly that row. -/
theorem filter_key_single {α : Type} (key : α → Int) :
    ∀ (l : List α) (x : α) (v : Int),
      (l.map key).Nodup → x ∈ l → key x = v →
      l.filter (fun r => key r == v) = [x] := by
  intro l
  induction l with
  | nil => intro x v _ hx; cases hx
  | cons h t ih =>
    intro x v hnd hx hkey
    rw [List.map_cons, List.nodup_cons] at hnd
    rcases List.mem_cons.mp hx with h1 | h1
    · subst h1
      rw [List.filter_cons, if_pos (by simp [hkey])]
      have ht : t.filter (fun r => key r == v) = [] := by
        rw [List.filter_eq_nil_iff]
        intro a ha hc
        rw [beq_iff_eq] at hc
        exact hnd.1 (by rw [hkey, ← hc]; exact List.mem_map_of_mem key ha)
      rw [ht]
    · have hne : key h ≠ v := by
        intro hc
        exact hnd.1 (by rw [hc, ← hkey]; exact List.mem_map_of_mem key h1)
      rw [List.filter_cons, if_neg (by simp [hne])]
      exact ih x v hnd.2 h1 hkey

/-! ### C6: the active-list singleton, as the code actually maintains it -/

/-- C6 (amended): after `SetActiveList id`, a list is active exactly when
its id is the requested one; hence with duplicate-free ids and the id
present, exactly one list is active (namely that one), while a missing id
leaves zero lists active even though lists exist. -/
theorem c6_active_singleton_amended (lists : List LRow) (id : Int) :
    (∀ r ∈ SetActiveList lists id, (r.isActive = true ↔ r.id = id)) ∧
    ((lists.map (·.id)).Nodup → (∃ l ∈ lists, l.id = id) →
      activeCount (SetActiveList lists id) = 1) ∧
    ((∀ l ∈ lists, l.id ≠ id) → activeCount (SetActiveList lists id) = 0) := by
  have hset : SetActiveList lists id = lists.map (fun r =>
      if r.id == id then { r with isActive := true } else { r with isActive := false }) := by
    unfold SetActiveList
    rw [List.map_map]
    apply List.map_congr_left
    intro a _
    by_cases h1 : a.id == id
    · simp [Function.comp, h1]
    · simp [Function.comp, h1]
  have hact : ∀ a : LRow,
      (if a.id == id then { a with isActive := true } else { a with isActive := false }).isActive
        = (a.id == id) := by
    intro a
    by_cases h1 : a.id == id
    · rw [if_pos h1]; simp [h1]
    · rw [if_neg h1]; simp [h1]
  refine ⟨?_, ?_, ?_⟩
  · intro r hr
    rw [hset] at hr
    obtain ⟨a, _, rfl⟩ := List.mem_map.mp hr
    by_cases h1 : a.id == id
    · rw [if_pos h1]
      simpa using (beq_iff_eq.mp h1)
    · rw [if_neg h1]
      constructor
      · intro hc; cases hc
      · intro hc
        exact absurd (beq_iff_eq.mpr hc) h1
  · intro hnd hex
    obtain ⟨l, hl, hlid⟩ := hex
    unfold activeCount
    rw [hset, List.filter_map]
    have hfe : lists.filter ((fun r : LRow => r.isActive) ∘ fun r =>
        if r.id == id then { r with isActive := true } else { r with isActive := false }) =
        lists.filter (fun r => r.id == id) := by
      apply List.filter_congr
      intro a _
      exact hact a
    rw [hfe, filter_key_single (·.id) lists l id hnd hl hlid]
    simp
  · intro hnone
    unfold activeCount
    rw [hset, List.filter_map]
    have hfe : lists.filter ((fun r : LRow => r.isActive) ∘ fun r =>
        if r.id == id then { r with isActive := true } else { r with isActive := false }) = [] := by
      rw [List.filter_eq_nil_iff]
      intro a ha
      rw [Function.comp_apply, hact a]
      intro hc
      exact hnone a ha (beq_iff_eq.mp hc)
    rw [hfe]
    simp

/-- C6 witness: on the store with lists 1 (inactive) and 2 (active),
`SetActiveList 1` leaves exactly one active list. -/
theorem c6_active_singleton_witness :
    activeCount (SetActiveList [⟨1, 0, false⟩, ⟨2, 3, true⟩] 1) = 1 :=
  (c6_active_singleton_amended [⟨1, 0, false⟩, ⟨2, 3, true⟩] 1).2.1 (by decide)
    ⟨⟨1, 0, false⟩, by decide, rfl⟩

/-! ### C5: not-found behaviour, as the code actually implements it -/

/-- C5 (amended): the move and reorder operations, which read the entity
first, fail with Not-Found on a missing id and leave the store unchanged
(the rolled-back transaction is the `none` outcome); the delete operation
reports success with the store unchanged; and `SetActiveList` on a
missing id reports success while deactivating every list. -/
theorem c5_not_found_amended (items : List IRow) (lists : List LRow) (secs : List SRow)
    (id dest pos : Int)
    (hi : items.find? (fun r => r.id == id) = none)
    (hl : lists.find? (fun r => r.id == id) = none)
    (hs : secs.find? (fun r => r.id == id) = none) :
    MoveItemUp items id = none ∧
    MoveItemDown items id = none ∧
    reorderItemInSection items id pos = none ∧
    MoveItemToSectionAtPosition items id dest pos = none ∧
    MoveListUp lists id = none ∧
    MoveListDown lists id = none ∧
    MoveSectionUp secs id = none ∧
    MoveSectionDown secs id = none ∧
    DeleteItem items id = items ∧
    (∀ r ∈ SetActiveList lists id, r.isActive = false) := by
  refine ⟨?_, ?_, ?_, ?_, ?_, ?_, ?_, ?_, ?_, ?_⟩
  · unfold MoveItemUp; rw [hi]
  · unfold MoveItemDown; rw [hi]
  · unfold reorderItemInSection; rw [hi]
  · unfold MoveItemToSectionAtPosition; rw [hi]
  · unfold MoveListUp; rw [hl]
  · unfold MoveListDown; rw [hl]
  · unfold MoveSectionUp; rw [hs]
  · unfold MoveSectionDown; rw [hs]
  · unfold DeleteItem
    rw [List.filter_eq_self]
    intro a ha
    have := List.find?_eq_none.mp hi a ha
    simpa [bne] using this
  · intro r hr
    unfold SetActiveList at hr
    rw [List.map_map] at hr
    obtain ⟨a, ha, rfl⟩ := List.mem_map.mp hr
    have hne : ¬ (a.id == id) = true := List.find?_eq_none.mp hl a ha
    simp only [Function.comp]
    rw [if_neg hne]

/-- C5 witness: the amended behaviour at a concrete store and the missing
id 42. -/
theorem c5_not_found_witness :
    MoveItemUp [⟨1, 1, false, 0⟩] 42 = none ∧
    DeleteItem [⟨1, 1, false, 0⟩] 42 = [⟨1, 1, false, 0⟩] ∧
    (∀ r ∈ SetActiveList [⟨1, 0, true⟩] 42, r.isActive = false) := by
  have h := c5_not_found_amended [⟨1, 1, false, 0⟩] [⟨1, 0, true⟩] [⟨1, 1, 0⟩]
    42 2 0 (by decide) (by decide) (by decide)
  exact ⟨h.1, h.2.2.2.2.2.2.2.2.1, h.2.2.2.2.2.2.2.2.2⟩

/-! ### C8: no-op boundaries, as the code actually implements them -/

/-- C8 (amended): item moves are exact no-ops at the extremes even with
gaps, and list/section MoveDown on the maximal sibling is a no-op; but
list/section MoveUp is a no-op only at `sort_order = 0`: a first sibling
at a positive order is rewritten to order `current - 1`. -/
theorem c8_noop_boundaries_amended :
    (∀ (items : List IRow) (id : Int) (it : IRow),
      items.find? (fun r => r.id == id) = some it →
      (∀ r ∈ items, r.sectionId = it.sectionId → it.sortOrder ≤ r.sortOrder) →
      MoveItemUp items id = some items) ∧
    (∀ (items : List IRow) (id : Int) (it : IRow),
      items.find? (fun r => r.id == id) = some it →
      (∀ r ∈ items, r.sectionId = it.sectionId → r.sortOrder ≤ it.sortOrder) →
      MoveItemDown items id = some items) ∧
    (∀ (lists : List LRow) (id : Int) (l : LRow),
      lists.find? (fun r => r.id == id) = some l → l.sortOrder = 0 →
      MoveListUp lists id = some lists) ∧
    (∀ (lists : List LRow) (id : Int) (l : LRow),
      lists.find? (fun r => r.id == id) = some l →
      (∀ r ∈ lists, r.sortOrder ≤ l.sortOrder) →
      MoveListDown lists id = some lists) ∧
    (∀ (secs : List SRow) (id : Int) (s : SRow),
      secs.find? (fun r => r.id == id) = some s → s.sortOrder = 0 →
      MoveSectionUp secs id = some secs) ∧
    (∀ (secs : List SRow) (id : Int) (s : SRow),
      secs.find? (fun r => r.id == id) = some s →
      (∀ r ∈ secs, r.listId = s.listId → r.sortOrder ≤ s.sortOrder) →
      MoveSectionDown secs id = some secs) ∧
    (∀ (lists : List LRow) (id : Int) (l : LRow),
      lists.find? (fun r => r.id == id) = some l → 0 < l.sortOrder →
      (∀ r ∈ lists, r.sortOrder ≠ l.sortOrder - 1) →
      MoveListUp lists id = some (lists.map (fun r =>
        if r.id == id then { r with sortOrder := l.sortOrder - 1 } else r))) := by
  refine ⟨?_, ?_, ?_, ?_, ?_, ?_, ?_⟩
  · intro items id it hfind htop
    have hfil : items.filter (fun r =>
        r.sectionId == it.sectionId && r.sortOrder < it.sortOrder) = [] := by
      rw [List.filter_eq_nil_iff]
      intro a ha hc
      simp only [Bool.and_eq_true, beq_iff_eq, decide_eq_true_eq] at hc
      exact absurd (htop a ha hc.1) (by omega)
    simp only [MoveItemUp, hfind, hfil, pickMaxBySort]
  · intro items id it hfind hbot
    have hfil : items.filter (fun r =>
        r.sectionId == it.sectionId && r.sortOrder > it.sortOrder) = [] := by
      rw [List.filter_eq_nil_iff]
      intro a ha hc
      simp only [Bool.and_eq_true, beq_iff_eq, decide_eq_true_eq] at hc
      exact absurd (hbot a ha hc.1) (by omega)
    simp only [MoveItemDown, hfind, hfil, pickMinBySort]
  · intro lists id l hfind h0
    simp only [MoveListUp, hfind]
    rw [if_pos (by simp [h0])]
  · intro lists id l hfind hmax
    cases hsm : sqlMaxInt (lists.map (·.sortOrder)) with
    | none =>
      exfalso
      have hmem := List.mem_map_of_mem (fun r : LRow => r.sortOrder)
        (List.mem_of_find?_eq_some hfind)
      cases hml : lists.map (·.sortOrder) with
      | nil => rw [hml] at hmem; cases hmem
      | cons v vs => rw [hml] at hsm; simp [sqlMaxInt] at hsm
    | some m =>
      have hm := sqlMaxInt_mem hsm
      obtain ⟨a, ha, hav⟩ := List.mem_map.mp hm
      simp only [MoveListDown, hfind, hsm]
      rw [if_pos (by have := hmax a ha; omega)]
  · intro secs id s hfind h0
    simp only [MoveSectionUp, hfind]
    rw [if_pos (by simp [h0])]
  · intro secs id s hfind hmax
    cases hsm : sqlMaxInt ((secs.filter (fun r => r.listId == s.listId)).map (·.sortOrder)) with
    | none =>
      exfalso
      have hsmem : s ∈ secs.filter (fun r => r.listId == s.listId) := by
        rw [List.mem_filter]
        exact ⟨List.mem_of_find?_eq_some hfind, by simp⟩
      have hmem := List.mem_map_of_mem (fun r : SRow => r.sortOrder) hsmem
      cases hml : (secs.filter (fun r => r.listId == s.listId)).map (·.sortOrder) with
      | nil => rw [hml] at hmem; cases hmem
      | cons v vs => rw [hml] at hsm; simp [sqlMaxInt] at hsm
    | some m =>
      have hm := sqlMaxInt_mem hsm
      obtain ⟨a, ha, hav⟩ := List.mem_map.mp hm
      rw [List.mem_filter] at ha
      have hal : a.listId = s.listId := beq_iff_eq.mp ha.2
      simp only [MoveSectionDown, hfind, hsm]
      rw [if_pos (by have := hmax a ha.1 hal; omega)]
  · intro lists id l hfind hpos hgap
    simp only [MoveListUp, hfind]
    rw [if_neg (by simp; omega)]
    have hid : lists.map (fun r =>
        if r.sortOrder == l.sortOrder - 1 then { r with sortOrder := r.sortOrder + 1 } else r) =
        lists := by
      have hpt : ∀ a ∈ lists, (fun r : LRow =>
          if r.sortOrder == l.sortOrder - 1 then { r with sortOrder := r.sortOrder + 1 } else r) a
          = (fun r : LRow => r) a := by
        intro a ha
        simp only []
        rw [if_neg (by simpa using hgap a ha)]
      rw [List.map_congr_left hpt, List.map_id']
    rw [hid]

/-- C8 witness: the amended no-op boundaries at concrete stores, including
an item sibling group with gaps whose first item sits at order 3. -/
theorem c8_noop_boundaries_witness :
    MoveItemUp [⟨1, 1, false, 3⟩, ⟨2, 1, false, 7⟩] 1 =
      some [⟨1, 1, false, 3⟩, ⟨2, 1, false, 7⟩] ∧
    MoveItemDown [⟨1, 1, false, 3⟩, ⟨2, 1, false, 7⟩] 2 =
      some [⟨1, 1, false, 3⟩, ⟨2, 1, false, 7⟩] ∧
    MoveListDown [⟨1, 0, false⟩, ⟨2, 5, false⟩] 2 =
      some [⟨1, 0, false⟩, ⟨2, 5, false⟩] ∧
    MoveListUp [⟨1, 1, false⟩] 1 =
      some (List.map (fun r =>
        if r.id == 1 then { r with sortOrder := (1 : Int) - 1 } else r) [⟨1, 1, false⟩]) := by
  have h := c8_noop_boundaries_amended
  refine ⟨?_, ?_, ?_, ?_⟩
  · exact h.1 [⟨1, 1, false, 3⟩, ⟨2, 1, false, 7⟩] 1 ⟨1, 1, false, 3⟩ (by decide)
      (by decide)
  · exact h.2.1 [⟨1, 1, false, 3⟩, ⟨2, 1, false, 7⟩] 2 ⟨2, 1, false, 7⟩ (by decide)
      (by decide)
  · exact h.2.2.2.1 [⟨1, 0, false⟩, ⟨2, 5, false⟩] 2 ⟨2, 5, false⟩ (by decide)
      (by decide)
  · exact h.2.2.2.2.2.2 [⟨1, 1, false⟩] 1 ⟨1, 1, false⟩ (by decide) (by decide)
      (by decide)

/-! ### C2: swap-adjacent moves, as the code actually implements them -/

/-- C2 (amended): item moves locate the sibling with the nearest strictly
smaller (Up) or larger (Down) `sort_order` — even across gaps — and swap
exactly those two values; list and section moves instead bump any sibling
sitting at exactly `current ∓ 1` and write the moved row to
`current ∓ 1`, which is the claimed swap only when such an adjacent-valued
sibling exists. -/
theorem c2_swap_adjacent_amended :
    (∀ (items : List IRow) (id : Int) (it prev : IRow),
      items.find? (fun r => r.id == id) = some it →
      pickMaxBySort (items.filter (fun r =>
        r.sectionId == it.sectionId && r.sortOrder < it.sortOrder)) = some prev →
      prev ∈ items ∧ prev.sectionId = it.sectionId ∧ prev.sortOrder < it.sortOrder ∧
      (∀ r ∈ items, r.sectionId = it.sectionId → r.sortOrder < it.sortOrder →
        r.sortOrder ≤ prev.sortOrder) ∧
      MoveItemUp items id = some (items.map (fun r =>
        if r.id == id then { r with sortOrder := prev.sortOrder }
        else if r.id == prev.id then { r with sortOrder := it.sortOrder }
        else r))) ∧
    (∀ (items : List IRow) (id : Int) (it next : IRow),
      items.find? (fun r => r.id == id) = some it →
      pickMinBySort (items.filter (fun r =>
        r.sectionId == it.sectionId && r.sortOrder > it.sortOrder)) = some next →
      next ∈ items ∧ next.sectionId = it.sectionId ∧ it.sortOrder < next.sortOrder ∧
      (∀ r ∈ items, r.sectionId = it.sectionId → it.sortOrder < r.sortOrder →
        next.sortOrder ≤ r.sortOrder) ∧
      MoveItemDown items id = some (items.map (fun r =>
        if r.id == id then { r with sortOrder := next.sortOrder }
        else if r.id == next.id then { r with sortOrder := it.sortOrder }
        else r))) ∧
    (∀ (lists : List LRow) (id : Int) (l : LRow),
      lists.find? (fun r => r.id == id) = some l → l.sortOrder ≠ 0 →
      MoveListUp lists id = some (lists.map (fun r =>
        if r.id == id then { r with sortOrder := l.sortOrder - 1 }
        else if r.sortOrder == l.sortOrder - 1 then { r with sortOrder := r.sortOrder + 1 }
        else r))) ∧
    (∀ (lists : List LRow) (id : Int) (l : LRow) (m : Int),
      lists.find? (fun r => r.id == id) = some l →
      sqlMaxInt (lists.map (·.sortOrder)) = some m → l.sortOrder < m →
      MoveListDown lists id = some (lists.map (fun r =>
        if r.id == id then { r with sortOrder := l.sortOrder + 1 }
        else if r.sortOrder == l.sortOrder + 1 then { r with sortOrder := r.sortOrder - 1 }
        else r))) ∧
    (∀ (secs : List SRow) (id : Int) (s : SRow),
      secs.find? (fun r => r.id == id) = some s → s.sortOrder ≠ 0 →
      MoveSectionUp secs id = some (secs.map (fun r =>
        if r.id == id then { r with sortOrder := s.sortOrder - 1 }
        else if r.sortOrder == s.sortOrder - 1 && r.listId == s.listId then
          { r with sortOrder := r.sortOrder + 1 }
        else r))) ∧
    (∀ (secs : List SRow) (id : Int) (s : SRow) (m : Int),
      secs.find? (fun r => r.id == id) = some s →
      sqlMaxInt ((secs.filter (fun r => r.listId == s.listId)).map (·.sortOrder)) = some m →
      s.sortOrder < m →
      MoveSectionDown secs id = some (secs.map (fun r =>
        if r.id == id then { r with sortOrder := s.sortOrder + 1 }
        else if r.sortOrder == s.sortOrder + 1 && r.listId == s.listId then
          { r with sortOrder := r.sortOrder - 1 }
        else r))) := by
  refine ⟨?_, ?_, ?_, ?_, ?_, ?_⟩
  · intro items id it prev hfind hprev
    have hpm := pickMaxBySort_mem hprev
    rw [List.mem_filter] at hpm
    have hps : prev.sectionId = it.sectionId ∧ prev.sortOrder < it.sortOrder := by
      have := hpm.2
      simp only [Bool.and_eq_true, beq_iff_eq, decide_eq_true_eq] at this
      exact this
    refine ⟨hpm.1, hps.1, hps.2, ?_, ?_⟩
    · intro r hr hsec hlt
      exact pickMaxBySort_ge hprev r
        (List.mem_filter.mpr ⟨hr, by simp [hsec, hlt]⟩)
    · simp only [MoveItemUp, hfind, hprev]
      rw [List.map_map]
      congr 1
      apply List.map_congr_left
      intro a _
      by_cases h1 : a.id == id <;> by_cases h2 : a.id == prev.id <;>
        simp [Function.comp, h1, h2]
  · intro items id it next hfind hnext
    have hpm := pickMinBySort_mem hnext
    rw [List.mem_filter] at hpm
    have hps : next.sectionId = it.sectionId ∧ it.sortOrder < next.sortOrder := by
      have := hpm.2
      simp only [Bool.and_eq_true, beq_iff_eq, decide_eq_true_eq] at this
      exact ⟨this.1, this.2⟩
    refine ⟨hpm.1, hps.1, hps.2, ?_, ?_⟩
    · intro r hr hsec hlt
      exact pickMinBySort_le hnext r
        (List.mem_filter.mpr ⟨hr, by simp [hsec, hlt]⟩)
    · simp only [MoveItemDown, hfind, hnext]
      rw [List.map_map]
      congr 1
      apply List.map_congr_left
      intro a _
      by_cases h1 : a.id == id <;> by_cases h2 : a.id == next.id <;>
        simp [Function.comp, h1, h2]
  · intro lists id l hfind h0
    simp only [MoveListUp, hfind]
    rw [if_neg (by simpa using h0)]
    rw [List.map_map]
    congr 1
    apply List.map_congr_left
    intro a _
    by_cases h1 : a.id == id <;> by_cases h2 : a.sortOrder == l.sortOrder - 1 <;>
      simp [Function.comp, h1, h2]
  · intro lists id l m hfind hsm hlt
    simp only [MoveListDown, hfind, hsm]
    rw [if_neg (by omega)]
    rw [List.map_map]
    congr 1
    apply List.map_congr_left
    intro a _
    by_cases h1 : a.id == id <;> by_cases h2 : a.sortOrder == l.sortOrder + 1 <;>
      simp [Function.comp, h1, h2]
  · intro secs id s hfind h0
    simp only [MoveSectionUp, hfind]
    rw [if_neg (by simpa using h0)]
    rw [List.map_map]
    congr 1
    apply List.map_congr_left
    intro a _
    by_cases h1 : a.id == id <;>
      by_cases h2 : a.sortOrder == s.sortOrder - 1 && a.listId == s.listId <;>
      simp [Function.comp, h1, h2]
  · intro secs id s m hfind hsm hlt
    simp only [MoveSectionDown, hfind, hsm]
    rw [if_neg (by omega)]
    rw [List.map_map]
    congr 1
    apply List.map_congr_left
    intro a _
    by_cases h1 : a.id == id <;>
      by_cases h2 : a.sortOrder == s.sortOrder + 1 && a.listId == s.listId <;>
      simp [Function.comp, h1, h2]

/-- C2 witness: the swap on an item group with gaps (orders 0, 5, 9), and
the list behaviour on contiguous orders. -/
theorem c2_swap_adjacent_witness :
    MoveItemUp [⟨1, 1, false, 0⟩, ⟨2, 1, false, 5⟩, ⟨3, 1, false, 9⟩] 3 =
      some (List.map (fun r =>
        if r.id == 3 then { r with sortOrder := (5 : Int) }
        else if r.id == 2 then { r with sortOrder := (9 : Int) }
        else r) [⟨1, 1, false, 0⟩, ⟨2, 1, false, 5⟩, ⟨3, 1, false, 9⟩]) ∧
    MoveListUp [⟨1, 0, false⟩, ⟨2, 1, false⟩] 2 =
      some (List.map (fun r =>
        if r.id == 2 then { r with sortOrder := (1 : Int) - 1 }
        else if r.sortOrder == (1 : Int) - 1 then { r with sortOrder := r.sortOrder + 1 }
        else r) [⟨1, 0, false⟩, ⟨2, 1, false⟩]) := by
  constructor
  · exact (c2_swap_adjacent_amended.1 [⟨1, 1, false, 0⟩, ⟨2, 1, false, 5⟩, ⟨3, 1, false, 9⟩]
      3 ⟨3, 1, false, 9⟩ ⟨2, 1, false, 5⟩ (by decide) (by decide)).2.2.2.2
  · exact c2_swap_adjacent_amended.2.2.1 [⟨1, 0, false⟩, ⟨2, 1, false⟩] 2 ⟨2, 1, false⟩
      (by decide) (by decide)

/-! ### Order properties of the ascending sort -/

theorem insAscItem_perm (x : IRow) : ∀ l : List IRow, (insAscItem x l).Perm (x :: l) := by
  intro l
  induction l with
  | nil => simp [insAscItem]
  | cons y ys ih =>
    simp only [insAscItem]
    split
    · exact (ih.cons y).trans (List.Perm.swap x y ys)
    · exact List.Perm.refl _

theorem sortAscItems_perm : ∀ l : List IRow, (sortAscItems l).Perm l := by
  intro l
  induction l with
  | nil => simp [sortAscItems]
  | cons x xs ih =>
    simp only [sortAscItems]
    exact (insAscItem_perm x (sortAscItems xs)).trans (ih.cons x)

theorem insAscItem_pairwise (x : IRow) :
    ∀ l : List IRow, List.Pairwise (fun a b : IRow => a.sortOrder ≤ b.sortOrder) l →
      List.Pairwise (fun a b : IRow => a.sortOrder ≤ b.sortOrder) (insAscItem x l) := by
  intro l
  induction l with
  | nil => intro _; simp [insAscItem]
  | cons y ys ih =>
    intro h
    rw [List.pairwise_cons] at h
    simp only [insAscItem]
    split
    · rw [List.pairwise_cons]
      constructor
      · intro b hb
        rcases List.mem_cons.mp ((insAscItem_perm x ys).mem_iff.mp hb) with h1 | h1
        · subst h1; omega
        · exact h.1 b h1
      · exact ih h.2
    · rw [List.pairwise_cons]
      constructor
      · intro b hb
        rcases List.mem_cons.mp hb with h1 | h1
        · subst h1; omega
        · have := h.1 b h1; omega
      · rw [List.pairwise_cons]; exact h

theorem sortAscItems_pairwise :
    ∀ l : List IRow,
      List.Pairwise (fun a b : IRow => a.sortOrder ≤ b.sortOrder) (sortAscItems l) := by
  intro l
  induction l with
  | nil => simp [sortAscItems]
  | cons x xs ih => exact insAscItem_pairwise x (sortAscItems xs) ih

theorem getLastD_cons_mem :
    ∀ (rest : List IRow) (a : IRow), (a :: rest).getLastD a ∈ a :: rest := by
  intro rest
  induction rest with
  | nil => intro a; simp [List.getLastD]
  | cons b bs ih =>
    intro a
    have h1 : (a :: b :: bs).getLastD a = (b :: bs).getLastD b := by
      simp [List.getLastD]
    rw [h1]
    exact List.mem_cons_of_mem a (ih b)

theorem pairwise_le_getLastD :
    ∀ (rest : List IRow) (a : IRow),
      List.Pairwise (fun u v : IRow => u.sortOrder ≤ v.sortOrder) (a :: rest) →
      ∀ r ∈ a :: rest, r.sortOrder ≤ ((a :: rest).getLastD a).sortOrder := by
  intro rest
  induction rest with
  | nil =>
    intro a _ r hr
    rcases List.mem_cons.mp hr with h1 | h1
    · subst h1; simp [List.getLastD]
    · cases h1
  | cons b bs ih =>
    intro a h r hr
    rw [List.pairwise_cons] at h
    have h1 : (a :: b :: bs).getLastD a = (b :: bs).getLastD b := by
      simp [List.getLastD]
    rw [h1]
    rcases List.mem_cons.mp hr with h2 | h2
    · subst h2
      have hmem := getLastD_cons_mem bs b
      have := h.1 _ hmem
      omega
    · exact ih b h.2 r h2

/-- The destination section's incomplete ("active") items. -/
def destIncomplete (items : List IRow) (dest : Int) : List IRow :=
  items.filter (fun r => r.sectionId == dest && !r.completed)

/-- C4: a cross-section move computes the target order from the
destination's incomplete items — first item's order for position ≤ 0,
last item's order + 1 for position ≥ count, the order of the occupant for
an interior position, and max-of-any-sibling + 1 (0 on an empty section)
when no incomplete item exists — then shifts every destination row with
`sort_order ≥ target` up by one and writes the moved item at the target,
as in the `[0,1,2]`-into-position-1 example. -/
theorem c4_cross_section_shift_insert (items : List IRow) (id dest pos : Int) (it : IRow)
    (hfind : items.find? (fun r => r.id == id) = some it)
    (hdiff : it.sectionId ≠ dest) :
    (∃ tgt : Int,
      MoveItemToSectionAtPosition items id dest pos =
        some (items.map (fun r =>
          if r.id == id then { r with sectionId := dest, sortOrder := tgt }
          else if r.sectionId == dest && r.sortOrder ≥ tgt then
            { r with sortOrder := r.sortOrder + 1 }
          else r)) ∧
      (destIncomplete items dest = [] →
        tgt = maxOrderD (-1)
          ((items.filter (fun r => r.sectionId == dest)).map (·.sortOrder)) + 1) ∧
      (items.filter (fun r => r.sectionId == dest) = [] → tgt = 0) ∧
      (destIncomplete items dest ≠ [] → pos ≤ 0 →
        ∃ first ∈ destIncomplete items dest, tgt = first.sortOrder ∧
          ∀ r ∈ destIncomplete items dest, first.sortOrder ≤ r.sortOrder) ∧
      (destIncomplete items dest ≠ [] → pos ≥ Int.ofNat (destIncomplete items dest).length →
        ∃ last ∈ destIncomplete items dest, tgt = last.sortOrder + 1 ∧
          ∀ r ∈ destIncomplete items dest, r.sortOrder ≤ last.sortOrder) ∧
      (0 < pos → pos < Int.ofNat (destIncomplete items dest).length →
        ∃ r, (sortAscItems (destIncomplete items dest))[pos.toNat]? = some r ∧
          tgt = r.sortOrder)) ∧
    MoveItemToSectionAtPosition
        [⟨1, 1, false, 10⟩, ⟨2, 2, false, 0⟩, ⟨3, 2, false, 1⟩, ⟨4, 2, false, 2⟩] 1 2 1 =
      some [⟨1, 2, false, 1⟩, ⟨2, 2, false, 0⟩, ⟨3, 2, false, 2⟩, ⟨4, 2, false, 3⟩] := by
  constructor
  · refine ⟨targetOrderOf (sortAscItems (destIncomplete items dest)) pos
      (maxOrderD (-1) ((items.filter (fun r => r.sectionId == dest)).map (·.sortOrder))),
      ?_, ?_, ?_, ?_, ?_, ?_⟩
    · simp only [MoveItemToSectionAtPosition, hfind, destIncomplete]
      rw [if_neg (by simpa using hdiff)]
      rw [List.map_map]
      congr 1
      apply List.map_congr_left
      intro a _
      by_cases h1 : a.id == id <;>
        by_cases h2 : (a.sectionId == dest && decide (a.sortOrder ≥
          targetOrderOf (sortAscItems (items.filter
            (fun r => r.sectionId == dest && !r.completed))) pos
          (maxOrderD (-1) ((items.filter (fun r => r.sectionId == dest)).map (·.sortOrder))))) = true <;>
        simp [Function.comp, h1, h2, destIncomplete]
    · intro hD
      rw [hD]
      rfl
    · intro hall
      have hD : destIncomplete items dest = [] := by
        unfold destIncomplete
        rw [List.filter_eq_nil_iff]
        intro a ha hc
        simp only [Bool.and_eq_true, beq_iff_eq] at hc
        have : a ∈ items.filter (fun r => r.sectionId == dest) :=
          List.mem_filter.mpr ⟨ha, by simp [hc.1]⟩
        rw [hall] at this
        cases this
      rw [hD, hall]
      rfl
    · intro hne hpos
      cases hs : sortAscItems (destIncomplete items dest) with
      | nil =>
        exfalso
        have := (hs ▸ sortAscItems_perm (destIncomplete items dest)).symm.eq_nil
        exact hne this
      | cons a rest =>
        simp only [targetOrderOf]
        rw [if_pos hpos]
        have hperm := hs ▸ sortAscItems_perm (destIncomplete items dest)
        have hpw := hs ▸ sortAscItems_pairwise (destIncomplete items dest)
        refine ⟨a, hperm.mem_iff.mp (List.mem_cons_self a rest), rfl, ?_⟩
        intro r hr
        rcases List.mem_cons.mp (hperm.mem_iff.mpr hr) with h1 | h1
        · subst h1; omega
        · rw [List.pairwise_cons] at hpw
          exact hpw.1 r h1
    · intro hne hge
      cases hs : sortAscItems (destIncomplete items dest) with
      | nil =>
        exfalso
        exact hne (hs ▸ sortAscItems_perm (destIncomplete items dest)).symm.eq_nil
      | cons a rest =>
        simp only [targetOrderOf]
        have hperm := hs ▸ sortAscItems_perm (destIncomplete items dest)
        have hlen : (a :: rest).length = (destIncomplete items dest).length :=
          hperm.length_eq
        have hge2 : pos ≥ Int.ofNat ((a :: rest).length) := by
          rw [hlen]; exact hge
        have hpos1 : ¬ pos ≤ 0 := by
          have hc := hge2
          simp only [List.length_cons, Int.ofNat_eq_coe] at hc
          omega
        rw [if_neg hpos1, if_pos hge2]
        have hpw := hs ▸ sortAscItems_pairwise (destIncomplete items dest)
        refine ⟨(a :: rest).getLastD a,
          hperm.mem_iff.mp (getLastD_cons_mem rest a), rfl, ?_⟩
        intro r hr
        exact pairwise_le_getLastD rest a hpw r (hperm.mem_iff.mpr hr)
    · intro hpos hlt
      cases hs : sortAscItems (destIncomplete items dest) with
      | nil =>
        exfalso
        have hn := (hs ▸ sortAscItems_perm (destIncomplete items dest)).symm.eq_nil
        rw [hn] at hlt
        simp at hlt
        omega
      | cons a rest =>
        simp only [targetOrderOf]
        have hperm := hs ▸ sortAscItems_perm (destIncomplete items dest)
        have hlen : (a :: rest).length = (destIncomplete items dest).length :=
          hperm.length_eq
        have hnge : ¬ pos ≥ Int.ofNat ((a :: rest).length) := by
          rw [hlen]
          have hc := hlt
          simp only [Int.ofNat_eq_coe] at hc ⊢
          omega
        rw [if_neg (by omega), if_neg hnge]
        have hidx : pos.toNat < (a :: rest).length := by
          rw [hlen]
          have hc := hlt
          simp only [Int.ofNat_eq_coe] at hc
          omega
        refine ⟨(a :: rest)[pos.toNat], List.getElem?_eq_getElem hidx, ?_⟩
        rw [List.getD_eq_getElem?_getD, List.getElem?_eq_getElem hidx]
        rfl
  · rfl

/-- C4 witness: the amended hypotheses discharged on the example store. -/
theorem c4_cross_section_witness :
    ∃ tgt : Int,
      MoveItemToSectionAtPosition
          [⟨1, 1, false, 10⟩, ⟨2, 2, false, 0⟩, ⟨3, 2, false, 1⟩, ⟨4, 2, false, 2⟩] 1 2 1 =
        some (List.map (fun r =>
          if r.id == 1 then { r with sectionId := (2 : Int), sortOrder := tgt }
          else if r.sectionId == 2 && r.sortOrder ≥ tgt then
            { r with sortOrder := r.sortOrder + 1 }
          else r)
          [⟨1, 1, false, 10⟩, ⟨2, 2, false, 0⟩, ⟨3, 2, false, 1⟩, ⟨4, 2, false, 2⟩]) :=
  ⟨_, ((c4_cross_section_shift_insert
      [⟨1, 1, false, 10⟩, ⟨2, 2, false, 0⟩, ⟨3, 2, false, 1⟩, ⟨4, 2, false, 2⟩]
      1 2 1 ⟨1, 1, false, 10⟩ (by decide) (by decide)).1).choose_spec.1⟩

/-! ### Suggestion-engine lemmas -/

theorem filterMap_eq_map_of_some {α β : Type} (f : α → Option β) (g : α → β)
    (h : ∀ a, f a = some (g a)) : ∀ l : List α, l.filterMap f = l.map g := by
  intro l
  induction l with
  | nil => rfl
  | cons a l ih =>
    rw [List.filterMap_cons, h a, List.map_cons, ih]

theorem insScored_perm (x : HistRow × Int) :
    ∀ l : List (HistRow × Int), (insScored x l).Perm (x :: l) := by
  intro l
  induction l with
  | nil => simp [insScored]
  | cons y ys ih =>
    simp only [insScored]
    split
    · exact List.Perm.refl _
    · exact (ih.cons y).trans (List.Perm.swap x y ys)

theorem sortScored_perm : ∀ l : List (HistRow × Int), (sortScored l).Perm l := by
  intro l
  induction l with
  | nil => simp [sortScored]
  | cons x xs ih =>
    simp only [sortScored]
    exact (insScored_perm x (sortScored xs)).trans (ih.cons x)

/-- Members of the scored suggestion output have a positive raw score. -/
theorem mem_GetItemSuggestions_score_pos (q : List Char) (lim : Int) (pool : List HistRow)
    (s : HistRow) (hs : s ∈ GetItemSuggestions q lim pool) :
    0 < scoreSuggestion s.name q := by
  unfold GetItemSuggestions at hs
  have h1 := List.mem_of_mem_take hs
  obtain ⟨p, hp, hps⟩ := List.mem_map.mp h1
  have h2 := (sortScored_perm _).mem_iff.mp hp
  obtain ⟨a, _, ha⟩ := List.mem_filterMap.mp h2
  by_cases hc : scoreSuggestion a.name q > 0
  · rw [if_pos hc] at ha
    have : a = p.1 := by
      have := congrArg (fun o => Option.map Prod.fst o) ha
      simpa using this
    rw [← hps, ← this]
    exact hc
  · rw [if_neg hc] at ha
    cases ha

/-! ### C10: the empty query inside the scored mode -/

/-- C10: with the empty query, `scoreSuggestion` gives every non-empty
name the base 500 (an empty name 1000); `GetItemSuggestions` keeps every
pool candidate with the usage boost added and only sorts and truncates;
and the empty-query bulk mode is chosen only by the handler's routing. -/
theorem c10_empty_query_scored_core :
    (∀ nm : List Char, scoreSuggestion nm [] = if nm = [] then 1000 else 500) ∧
    (∀ (lim : Int) (pool : List HistRow),
      GetItemSuggestions [] lim pool =
        ((sortScored (pool.map (fun s =>
          (s, (if s.name = [] then (1000 : Int) else 500) +
            Int.ofNat (s.usageCount / 10))))).map Prod.fst).take
          (if lim ≤ 0 then (10 : Int) else lim).toNat) ∧
    (∀ (q : List Char) (lim : Int) (pool rows : List HistRow),
      GetSuggestionsRoute q lim pool rows =
        if q = [] then GetAllItemSuggestions lim rows
        else GetItemSuggestions q lim pool) := by
  have hscore : ∀ nm : List Char, scoreSuggestion nm [] = if nm = [] then 1000 else 500 := by
    intro nm
    cases nm with
    | nil => rfl
    | cons c cs =>
      rw [if_neg (by simp)]
      simp only [scoreSuggestion, toLowerStr, List.map_nil, List.map_cons]
      rw [show ((Char.toLower c :: List.map Char.toLower cs) == ([] : List Char)) = false
        from rfl]
      simp [hasPre]
  refine ⟨hscore, ?_, ?_⟩
  · intro lim pool
    unfold GetItemSuggestions
    have hfm : pool.filterMap (fun s =>
        if scoreSuggestion s.name [] > 0 then
          some (s, scoreSuggestion s.name [] + Int.ofNat (s.usageCount / 10))
        else none) =
        pool.map (fun s =>
          (s, (if s.name = [] then (1000 : Int) else 500) + Int.ofNat (s.usageCount / 10))) := by
      apply filterMap_eq_map_of_some
      intro a
      rw [hscore a.name]
      by_cases h1 : a.name = []
      · rw [if_pos h1, if_pos (by norm_num)]
      · rw [if_neg h1, if_pos (by norm_num)]
    simp only [] at hfm ⊢
    rw [hfm]
  · intro q lim pool rows
    cases q with
    | nil => rfl
    | cons c cs =>
      rw [if_neg (by simp)]
      rfl

/-- The word loop returns the edit distance of the first word the
predicate accepts. -/
theorem wordLoop_eq_find? (maxD : Nat) (q : List Char) :
    ∀ ws : List (List Char), wordLoop maxD q ws =
      ((ws.find? (fun w => levenshteinDistance w q ≤ maxD)).map
        (fun w => levenshteinDistance w q)) := by
  intro ws
  induction ws with
  | nil => rfl
  | cons w ws ih =>
    by_cases h : levenshteinDistance w q ≤ maxD
    · simp [wordLoop, List.find?_cons, h]
    · simp [wordLoop, List.find?_cons, h, ih]

/-- Modelled from the amended claim's words: identical to the claimed
scoring except that the word-level fuzzy fallback scores the first
whitespace-delimited word (scanning left to right) whose edit distance
from the query is within `floor(|query| / 2)`. -/
def amendedScore (name query : List Char) : Int :=
  let nameLower := toLowerStr name
  let queryLower := toLowerStr query
  if nameLower == queryLower then 1000
  else if hasPre nameLower queryLower then 500
  else if hasSub nameLower queryLower then 200
  else if query.length ≥ 3 then
    let maxD := query.length / 2
    let d := levenshteinDistance nameLower queryLower
    if d ≤ maxD then 100 - 20 * Int.ofNat d
    else
      match (fieldsOf nameLower).find? (fun w => levenshteinDistance w queryLower ≤ maxD) with
      | some w => 80 - 15 * Int.ofNat (levenshteinDistance w queryLower)
      | none => 0
  else 0

/-- C3 (amended): the code's scoring equals the amended formula (first
qualifying word, not best word), only positively scored candidates are
returned (so a negative fuzzy base is excluded rather than boosted), and
the Milk / Almond Milk / Silk ranking example holds. -/
theorem c3_scoring_amended :
    (∀ name query : List Char, scoreSuggestion name query = amendedScore name query) ∧
    (∀ (q : List Char) (lim : Int) (pool : List HistRow) (s : HistRow),
      s ∈ GetItemSuggestions q lim pool → 0 < scoreSuggestion s.name q) ∧
    (GetItemSuggestions (chars "milk") 10
      [⟨chars "Almond Milk", 1, 20⟩, ⟨chars "Milk", 1, 5⟩, ⟨chars "Silk", 1, 1⟩]).map
        (·.name) =
      [chars "Milk", chars "Almond Milk", chars "Silk"] := by
  refine ⟨?_, mem_GetItemSuggestions_score_pos, by decide⟩
  intro name query
  unfold scoreSuggestion amendedScore
  simp only []
  split_ifs with h1 h2 h3 h4 h5
  · rfl
  · rfl
  · rfl
  · omega
  · rw [wordLoop_eq_find? (query.length / 2) (toLowerStr query) (fieldsOf (toLowerStr name))]
    cases hf : (fieldsOf (toLowerStr name)).find?
        (fun w => levenshteinDistance w (toLowerStr query) ≤ query.length / 2) with
    | none => rfl
    | some w =>
      simp only [Option.map_some']
      omega
  · rfl

/-- C3 witness: the positivity hypothesis discharged on the Milk row. -/
theorem c3_scoring_witness :
    0 < scoreSuggestion (chars "Milk") (chars "milk") :=
  c3_scoring_amended.2.1 (chars "milk") 10 [⟨chars "Milk", 1, 5⟩] ⟨chars "Milk", 1, 5⟩
    (by decide)

/-! ### Characterising the renumbering loop of `reorderItemInSection` -/

/-- Index of the row with the given id (position among the walked rows). -/
def idIdx (tid : Int) : List IRow → Option Nat
  | [] => none
  | r :: rs => if r.id == tid then some 0 else (idIdx tid rs).map (· + 1)

/-- The per-row effect of running `reorderLoop movedId p rs i no` over a
state: the moved row receives `no + (p - i)` if the insertion point falls
inside this window, the row walked at offset `k` receives `no + k`,
plus one if the insertion point has been passed. -/
def loopOrd (movedId : Int) (p : Nat) (rs : List IRow) (i no : Nat) (x : IRow) : IRow :=
  if x.id == movedId then
    (if i ≤ p ∧ p < i + rs.length then { x with sortOrder := Int.ofNat (no + (p - i)) } else x)
  else
    match idIdx x.id rs with
    | some k =>
      { x with sortOrder := Int.ofNat (no + k + (if i ≤ p ∧ p ≤ i + k then 1 else 0)) }
    | none => x

theorem loopOrd_fields (movedId : Int) (p : Nat) (rs : List IRow) (i no : Nat) (x : IRow) :
    (loopOrd movedId p rs i no x).id = x.id ∧
    (loopOrd movedId p rs i no x).sectionId = x.sectionId ∧
    (loopOrd movedId p rs i no x).completed = x.completed := by
  unfold loopOrd
  split
  · split <;> exact ⟨rfl, rfl, rfl⟩
  · cases idIdx x.id rs <;> exact ⟨rfl, rfl, rfl⟩

/-- The row-update function of a single `UPDATE ... WHERE id` statement. -/
def setFun (tid v : Int) (x : IRow) : IRow :=
  if x.id == tid then { x with sortOrder := v } else x

theorem setOrder_eq_map (st : List IRow) (tid v : Int) :
    setOrder st tid v = st.map (setFun tid v) := rfl

theorem setFun_fields (tid v : Int) (x : IRow) :
    (setFun tid v x).id = x.id ∧ (setFun tid v x).sectionId = x.sectionId ∧
    (setFun tid v x).completed = x.completed := by
  unfold setFun
  split <;> exact ⟨rfl, rfl, rfl⟩

theorem idIdx_none_of_not_mem (tid : Int) :
    ∀ rs : List IRow, tid ∉ rs.map (·.id) → idIdx tid rs = none := by
  intro rs
  induction rs with
  | nil => intro _; rfl
  | cons r rs ih =>
    intro h
    rw [List.map_cons] at h
    have h1 : ¬ (r.id == tid) = true := by
      rw [beq_iff_eq]
      intro hc
      exact h (by rw [← hc]; exact List.mem_cons_self _ _)
    unfold idIdx
    rw [if_neg h1, ih (fun hc => h (List.mem_cons_of_mem _ hc))]
    rfl

theorem idIdx_cons_self (r : IRow) (rs : List IRow) (tid : Int) (h : r.id = tid) :
    idIdx tid (r :: rs) = some 0 := by
  unfold idIdx
  rw [if_pos (beq_iff_eq.mpr h)]

theorem idIdx_cons_ne (r : IRow) (rs : List IRow) (tid : Int) (h : r.id ≠ tid) :
    idIdx tid (r :: rs) = (idIdx tid rs).map (· + 1) := by
  conv_lhs => rw [idIdx]
  rw [if_neg (by simpa using h)]

theorem setFun_eq_of_id (tid v : Int) (x : IRow) (h : x.id = tid) :
    setFun tid v x = { x with sortOrder := v } := by
  unfold setFun
  rw [if_pos (beq_iff_eq.mpr h)]

theorem setFun_eq_of_ne (tid v : Int) (x : IRow) (h : x.id ≠ tid) :
    setFun tid v x = x := by
  unfold setFun
  rw [if_neg (by simpa using h)]

theorem loopOrd_moved (movedId : Int) (p : Nat) (rs : List IRow) (i no : Nat) (x : IRow)
    (h : x.id = movedId) :
    loopOrd movedId p rs i no x =
      if i ≤ p ∧ p < i + rs.length then { x with sortOrder := Int.ofNat (no + (p - i)) }
      else x := by
  unfold loopOrd
  rw [if_pos (beq_iff_eq.mpr h)]

theorem loopOrd_other_some (movedId : Int) (p : Nat) (rs : List IRow) (i no : Nat)
    (x : IRow) (k : Nat) (h : x.id ≠ movedId) (hk : idIdx x.id rs = some k) :
    loopOrd movedId p rs i no x =
      { x with sortOrder := Int.ofNat (no + k + (if i ≤ p ∧ p ≤ i + k then 1 else 0)) } := by
  unfold loopOrd
  rw [if_neg (by simpa using h), hk]

theorem loopOrd_other_none (movedId : Int) (p : Nat) (rs : List IRow) (i no : Nat)
    (x : IRow) (h : x.id ≠ movedId) (hk : idIdx x.id rs = none) :
    loopOrd movedId p rs i no x = x := by
  unfold loopOrd
  rw [if_neg (by simpa using h), hk]

/-- One skipped iteration (`i ≠ p`), expressed per row. -/
theorem loopOrd_cons_skip (movedId : Int) (p : Nat) (r : IRow) (rs' : List IRow)
    (i no : Nat) (x : IRow) (hip : i ≠ p) (hBr : r.id ≠ movedId)
    (hNr : r.id ∉ rs'.map (·.id)) :
    loopOrd movedId p rs' (i+1) (no+1) (setFun r.id (Int.ofNat no) x) =
      loopOrd movedId p (r :: rs') i no x := by
  by_cases hxr : x.id = r.id
  · have hxm : x.id ≠ movedId := by rw [hxr]; exact hBr
    rw [setFun_eq_of_id r.id (Int.ofNat no) x hxr]
    rw [loopOrd_other_none movedId p rs' (i+1) (no+1) { x with sortOrder := Int.ofNat no } hxm
      (idIdx_none_of_not_mem x.id rs' (hxr ▸ hNr))]
    rw [loopOrd_other_some movedId p (r :: rs') i no x 0 hxm
      (idIdx_cons_self r rs' x.id hxr.symm)]
    rw [if_neg (by omega)]
    rfl
  · rw [setFun_eq_of_ne r.id (Int.ofNat no) x (fun hc => hxr hc)]
    by_cases hxm : x.id = movedId
    · rw [loopOrd_moved movedId p rs' (i+1) (no+1) x hxm,
        loopOrd_moved movedId p (r :: rs') i no x hxm]
      simp only [List.length_cons]
      by_cases hc : i + 1 ≤ p ∧ p < i + 1 + rs'.length
      · rw [if_pos hc, if_pos (by omega)]
        rw [show no + 1 + (p - (i + 1)) = no + (p - i) from by omega]
      · rw [if_neg hc, if_neg (by omega)]
    · cases hii : idIdx x.id rs' with
      | none =>
        rw [loopOrd_other_none movedId p rs' (i+1) (no+1) x hxm hii]
        rw [loopOrd_other_none movedId p (r :: rs') i no x hxm
          (by rw [idIdx_cons_ne r rs' x.id (fun hc => hxr hc.symm), hii]; rfl)]
      | some k =>
        rw [loopOrd_other_some movedId p rs' (i+1) (no+1) x k hxm hii]
        rw [loopOrd_other_some movedId p (r :: rs') i no x (k+1) hxm
          (by rw [idIdx_cons_ne r rs' x.id (fun hc => hxr hc.symm), hii]; rfl)]
        by_cases hc : i + 1 ≤ p ∧ p ≤ i + 1 + k
        · rw [if_pos hc, if_pos (by omega)]
          rw [show no + 1 + k + 1 = no + (k + 1) + 1 from by omega]
        · rw [if_neg hc, if_neg (by omega)]
          rw [show no + 1 + k + 0 = no + (k + 1) + 0 from by omega]

/-- The inserting iteration (`i = p`), expressed per row. -/
theorem loopOrd_cons_insert (movedId : Int) (p : Nat) (r : IRow) (rs' : List IRow)
    (no : Nat) (x : IRow) (hBr : r.id ≠ movedId) (hNr : r.id ∉ rs'.map (·.id)) :
    loopOrd movedId p rs' (p+1) (no+2)
      (setFun r.id (Int.ofNat (no+1)) (setFun movedId (Int.ofNat no) x)) =
      loopOrd movedId p (r :: rs') p no x := by
  by_cases hxm : x.id = movedId
  · rw [setFun_eq_of_id movedId (Int.ofNat no) x hxm]
    rw [setFun_eq_of_ne r.id (Int.ofNat (no+1)) { x with sortOrder := Int.ofNat no }
      (show x.id ≠ r.id from fun hc => hBr (hc ▸ hxm))]
    rw [loopOrd_moved movedId p rs' (p+1) (no+2) { x with sortOrder := Int.ofNat no } hxm]
    rw [loopOrd_moved movedId p (r :: rs') p no x hxm]
    rw [if_neg (by omega), if_pos (by simp only [List.length_cons]; omega)]
    rw [show no + (p - p) = no from by omega]
  · rw [setFun_eq_of_ne movedId (Int.ofNat no) x (fun hc => hxm hc)]
    by_cases hxr : x.id = r.id
    · rw [setFun_eq_of_id r.id (Int.ofNat (no+1)) x hxr]
      rw [loopOrd_other_none movedId p rs' (p+1) (no+2)
        { x with sortOrder := Int.ofNat (no+1) } hxm
        (idIdx_none_of_not_mem x.id rs' (hxr ▸ hNr))]
      rw [loopOrd_other_some movedId p (r :: rs') p no x 0 hxm
        (idIdx_cons_self r rs' x.id hxr.symm)]
      rw [if_pos (by omega)]
    · rw [setFun_eq_of_ne r.id (Int.ofNat (no+1)) x (fun hc => hxr hc)]
      cases hii : idIdx x.id rs' with
      | none =>
        rw [loopOrd_other_none movedId p rs' (p+1) (no+2) x hxm hii]
        rw [loopOrd_other_none movedId p (r :: rs') p no x hxm
          (by rw [idIdx_cons_ne r rs' x.id (fun hc => hxr hc.symm), hii]; rfl)]
      | some k =>
        rw [loopOrd_other_some movedId p rs' (p+1) (no+2) x k hxm hii]
        rw [loopOrd_other_some movedId p (r :: rs') p no x (k+1) hxm
          (by rw [idIdx_cons_ne r rs' x.id (fun hc => hxr hc.symm), hii]; rfl)]
        rw [if_neg (by omega), if_pos (by omega)]
        rw [show no + 2 + k + 0 = no + (k + 1) + 1 from by omega]

theorem reorderLoop_char (movedId : Int) (p : Nat) :
    ∀ (rs : List IRow) (i no : Nat) (st : List IRow),
      (∀ r ∈ rs, r.id ≠ movedId) → ((rs.map (·.id)).Nodup) →
      reorderLoop movedId p rs i no st =
        (st.map (loopOrd movedId p rs i no),
         no + rs.length + (if i ≤ p ∧ p < i + rs.length then 1 else 0)) := by
  intro rs
  induction rs with
  | nil =>
    intro i no st _ _
    simp only [reorderLoop, List.length_nil]
    rw [Prod.mk.injEq]
    refine ⟨?_, ?_⟩
    · have h2 : ∀ a ∈ st, loopOrd movedId p [] i no a = (fun y => y) a := by
        intro a _
        unfold loopOrd
        split
        · rw [if_neg (by simp only [List.length_nil]; omega)]
        · rfl
      rw [List.map_congr_left h2, List.map_id']
    · rw [if_neg (by omega)]
      omega
  | cons r rs' ih =>
    intro i no st hB hND
    have hBr : r.id ≠ movedId := hB r (List.mem_cons_self r rs')
    have hB' : ∀ x ∈ rs', x.id ≠ movedId := fun x hx => hB x (List.mem_cons_of_mem r hx)
    rw [List.map_cons, List.nodup_cons] at hND
    by_cases hip : i = p
    · subst hip
      simp only [reorderLoop]
      rw [if_pos (beq_self_eq_true i)]
      rw [ih (i+1) (no+2) _ hB' hND.2]
      rw [Prod.mk.injEq]
      refine ⟨?_, ?_⟩
      · rw [setOrder_eq_map, setOrder_eq_map, List.map_map, List.map_map]
        apply List.map_congr_left
        intro x _
        exact loopOrd_cons_insert movedId i r rs' no x hBr hND.1
      · simp only [List.length_cons]
        rw [if_neg (by omega), if_pos (by omega)]
        omega
    · simp only [reorderLoop]
      rw [if_neg (by simpa using hip)]
      rw [ih (i+1) (no+1) _ hB' hND.2]
      rw [Prod.mk.injEq]
      refine ⟨?_, ?_⟩
      · rw [setOrder_eq_map, List.map_map]
        apply List.map_congr_left
        intro x _
        exact loopOrd_cons_skip movedId p r rs' i no x hip hBr hND.1
      · simp only [List.length_cons]
        by_cases hc : i + 1 ≤ p ∧ p < i + 1 + rs'.length
        · rw [if_pos hc, if_pos (by omega)]
          omega
        · rw [if_neg hc, if_neg (by omega)]
          omega

/-- The sequence of `sort_order` values handed to the walked rows. -/
def valsList (p : Nat) : Nat → Nat → Nat → List Int
  | _, _, 0 => []
  | i, no, len+1 =>
    if i = p then Int.ofNat (no+1) :: valsList p (i+1) (no+2) len
    else Int.ofNat no :: valsList p (i+1) (no+1) len

theorem valsList_length (p : Nat) :
    ∀ (len i no : Nat), (valsList p i no len).length = len := by
  intro len
  induction len with
  | zero => intro i no; rfl
  | succ len ih =>
    intro i no
    unfold valsList
    split
    · simp only [List.length_cons, ih]
    · simp only [List.length_cons, ih]

theorem valsList_succ (p i no len : Nat) :
    valsList p i no (len+1) =
      if i = p then Int.ofNat (no+1) :: valsList p (i+1) (no+2) len
      else Int.ofNat no :: valsList p (i+1) (no+1) len := rfl

theorem map_loopOrd_vals (movedId : Int) (p : Nat) :
    ∀ (rs : List IRow) (i no : Nat),
      (∀ r ∈ rs, r.id ≠ movedId) → ((rs.map (·.id)).Nodup) →
      rs.map (fun x => (loopOrd movedId p rs i no x).sortOrder) = valsList p i no rs.length := by
  intro rs
  induction rs with
  | nil => intro i no _ _; rfl
  | cons r rs' ih =>
    intro i no hB hND
    have hBr : r.id ≠ movedId := hB r (List.mem_cons_self r rs')
    have hB' : ∀ x ∈ rs', x.id ≠ movedId := fun x hx => hB x (List.mem_cons_of_mem r hx)
    rw [List.map_cons, List.nodup_cons] at hND
    have hNr : ∀ x ∈ rs', x.id ≠ r.id := by
      intro x hx hc
      exact hND.1 (by rw [← hc]; exact List.mem_map_of_mem (·.id) hx)
    rw [List.map_cons]
    have hhead : (loopOrd movedId p (r :: rs') i no r).sortOrder =
        Int.ofNat (if i = p then no + 1 else no) := by
      rw [loopOrd_other_some movedId p (r :: rs') i no r 0 hBr
        (idIdx_cons_self r rs' r.id rfl)]
      by_cases hip : i = p
      · rw [if_pos (by omega), if_pos hip]
      · rw [if_neg (by omega), if_neg hip]
        rfl
    have htail : rs'.map (fun x => (loopOrd movedId p (r :: rs') i no x).sortOrder) =
        valsList p (i+1) (if i = p then no + 2 else no + 1) rs'.length := by
      by_cases hip : i = p
      · subst hip
        rw [show (if i = i then no + 2 else no + 1) = no + 2 from if_pos rfl]
        rw [← ih (i+1) (no+2) hB' hND.2]
        apply List.map_congr_left
        intro x hx
        rw [← loopOrd_cons_insert movedId i r rs' no x hBr hND.1]
        rw [setFun_eq_of_ne movedId (Int.ofNat no) x (hB' x hx)]
        rw [setFun_eq_of_ne r.id (Int.ofNat (no+1)) x (hNr x hx)]
      · rw [if_neg hip]
        rw [← ih (i+1) (no+1) hB' hND.2]
        apply List.map_congr_left
        intro x hx
        rw [← loopOrd_cons_skip movedId p r rs' i no x hip hBr hND.1]
        rw [setFun_eq_of_ne r.id (Int.ofNat no) x (hNr x hx)]
    rw [hhead, htail]
    simp only [List.length_cons, valsList_succ]
    by_cases hip : i = p
    · simp [hip]
    · simp [hip]

theorem valsList_no_insert (p : Nat) :
    ∀ (len i no : Nat), (p < i ∨ i + len ≤ p) →
      valsList p i no len = (List.range' no len).map Int.ofNat := by
  intro len
  induction len with
  | zero => intro i no _; rfl
  | succ len ih =>
    intro i no h
    have hip : i ≠ p := by omega
    unfold valsList
    rw [if_neg hip, List.range'_succ, List.map_cons]
    rw [ih (i+1) (no+1) (by omega)]

theorem valsList_insert (p : Nat) :
    ∀ (len i no : Nat), i ≤ p → p - i < len →
      valsList p i no len = (List.range' no (p - i)).map Int.ofNat ++
        (List.range' (no + (p - i) + 1) (len - (p - i))).map Int.ofNat := by
  intro len
  induction len with
  | zero => intro i no _ h2; omega
  | succ len ih =>
    intro i no h1 h2
    unfold valsList
    by_cases hip : i = p
    · rw [if_pos hip]
      rw [show p - i = 0 from by omega]
      simp only [List.range'_zero, List.map_nil, List.nil_append, Nat.sub_zero,
        Nat.add_zero]
      rw [List.range'_succ, List.map_cons]
      rw [valsList_no_insert p len (i+1) (no+2) (by omega)]
    · rw [if_neg hip]
      have h3 : i + 1 ≤ p := by omega
      have h4 : p - (i + 1) < len := by omega
      rw [ih (i+1) (no+1) h3 h4]
      rw [show p - i = (p - (i + 1)) + 1 from by omega]
      rw [List.range'_succ, List.map_cons, List.cons_append]
      rw [show no + ((p - (i + 1)) + 1) + 1 = no + 1 + (p - (i + 1)) + 1 from by omega]
      rw [show len + 1 - ((p - (i + 1)) + 1) = len - (p - (i + 1)) from by omega]

theorem incompleteOrders_map (items : List IRow) (S : Int) (G : IRow → IRow)
    (hG : ∀ x, (G x).sectionId = x.sectionId ∧ (G x).completed = x.completed) :
    incompleteOrders (items.map G) S =
      (items.filter (fun r => r.sectionId == S && !r.completed)).map
        (fun x => (G x).sortOrder) := by
  unfold incompleteOrders
  rw [List.filter_map, List.map_map]
  have hfe : items.filter ((fun r : IRow => r.sectionId == S && !r.completed) ∘ G) =
      items.filter (fun r => r.sectionId == S && !r.completed) := by
    apply List.filter_congr
    intro x _
    simp only [Function.comp_apply, (hG x).1, (hG x).2]
  rw [hfe]
  rfl

theorem filter_incomplete_split (items : List IRow) (S id0 : Int) (it : IRow)
    (hnd : (items.map (·.id)).Nodup) (hmem : it ∈ items) (hid : it.id = id0)
    (hsec : it.sectionId = S) (hinc : it.completed = false) :
    (items.filter (fun r => r.sectionId == S && !r.completed)).Perm
      (it :: items.filter (fun r => r.sectionId == S && !r.completed && r.id != id0)) := by
  have hndD : ((items.filter (fun r => r.sectionId == S && !r.completed)).map (·.id)).Nodup :=
    List.Nodup.sublist (List.Sublist.map (·.id) (List.filter_sublist items)) hnd
  have hmemD : it ∈ items.filter (fun r => r.sectionId == S && !r.completed) :=
    List.mem_filter.mpr ⟨hmem, by simp [hsec, hinc]⟩
  have hq : (items.filter (fun r => r.sectionId == S && !r.completed)).filter
      (fun r => r.id == id0) = [it] :=
    filter_key_single (·.id)
      (items.filter (fun r => r.sectionId == S && !r.completed)) it id0 hndD hmemD hid
  have hnq : (items.filter (fun r => r.sectionId == S && !r.completed)).filter
      (fun r => !(r.id == id0)) =
      items.filter (fun r => r.sectionId == S && !r.completed && r.id != id0) := by
    rw [List.filter_filter]
    apply List.filter_congr
    intro a _
    cases h1 : a.id == id0 <;> cases h2 : a.sectionId == S <;> cases h3 : a.completed <;>
      simp [bne, h1, h2, h3]
  have hp := (List.filter_append_perm (fun r => r.id == id0)
    (items.filter (fun r => r.sectionId == S && !r.completed))).symm
  rw [hq, hnq] at hp
  exact hp

theorem perm_vals_range (p len : Nat) (h : p ≤ len) :
    (Int.ofNat p :: valsList p 0 0 len).Perm ((List.range (len+1)).map Int.ofNat) := by
  by_cases hlt : p < len
  · rw [valsList_insert p len 0 0 (by omega) (by omega)]
    rw [show p - 0 = p from rfl, show (0 + p + 1 : Nat) = p + 1 from by omega]
    rw [List.range_eq_range']
    rw [show len + 1 = (len + 1 - p) + p from by omega]
    rw [← List.range'_append 0 p (len + 1 - p) 1]
    rw [show (0 + 1 * p : Nat) = p from by omega]
    rw [show len + 1 - p = (len - p) + 1 from by omega]
    rw [List.range'_succ]
    rw [List.map_append, List.map_cons]
    exact List.perm_middle.symm
  · have hpe : p = len := by omega
    subst hpe
    rw [valsList_no_insert p p 0 0 (by omega)]
    rw [List.range_eq_range']
    rw [show p + 1 = 1 + p from by omega]
    rw [← List.range'_append 0 p 1 1]
    rw [show (0 + 1 * p : Nat) = p from by omega]
    rw [List.range'_one]
    rw [List.map_append]
    rw [show List.map Int.ofNat [p] = [Int.ofNat p] from rfl]
    have hm := @List.perm_middle Int (Int.ofNat p) (List.map Int.ofNat (List.range' 0 p)) []
    rw [List.append_nil] at hm
    exact hm.symm

/-- The rows walked by the renumbering loop: the moved item's incomplete
siblings, in ascending `sort_order`. -/
def reorderOthers (items : List IRow) (S movedId : Int) : List IRow :=
  items.filter (fun r => r.sectionId == S && !r.completed && r.id != movedId)

theorem reorder_dense_aux (items : List IRow) (id : Int) (it : IRow)
    (others : List IRow) (p : Nat)
    (hitmem : it ∈ items) (hitid : it.id = id) (hinc : it.completed = false)
    (hnd : (items.map (·.id)).Nodup)
    (hothers : others = sortAscItems (reorderOthers items it.sectionId id))
    (hple : p ≤ others.length) :
    denseOrders (incompleteOrders
      (if p ≥ others.length then
        setOrder (reorderLoop id p others 0 0 items).1 id
          (Int.ofNat (reorderLoop id p others 0 0 items).2)
      else (reorderLoop id p others 0 0 items).1) it.sectionId) := by
  have hpermO : others.Perm (reorderOthers items it.sectionId id) := by
    rw [hothers]; exact sortAscItems_perm _
  have hB : ∀ r ∈ others, r.id ≠ id := by
    intro r hr
    have hmem := hpermO.mem_iff.mp hr
    unfold reorderOthers at hmem
    have := (List.mem_filter.mp hmem).2
    simp only [Bool.and_eq_true, bne_iff_ne] at this
    exact this.2
  have hNDo : (others.map (·.id)).Nodup := by
    have h1 : ((reorderOthers items it.sectionId id).map (·.id)).Nodup := by
      unfold reorderOthers
      exact List.Nodup.sublist (List.Sublist.map (·.id) (List.filter_sublist items)) hnd
    exact ((hpermO.map (·.id)).symm.nodup h1)
  have hsplit := filter_incomplete_split items it.sectionId id it hnd hitmem hitid rfl hinc
  have hvals : others.map (fun x => (loopOrd id p others 0 0 x).sortOrder) =
      valsList p 0 0 others.length := map_loopOrd_vals id p others 0 0 hB hNDo
  rw [reorderLoop_char id p others 0 0 items hB hNDo]
  dsimp only
  by_cases hplt : p < others.length
  · rw [if_neg (by omega)]
    rw [incompleteOrders_map items it.sectionId (loopOrd id p others 0 0)
      (fun x => ⟨(loopOrd_fields id p others 0 0 x).2.1,
        (loopOrd_fields id p others 0 0 x).2.2⟩)]
    have hchain : ((items.filter
        (fun r => r.sectionId == it.sectionId && !r.completed)).map
        (fun x => (loopOrd id p others 0 0 x).sortOrder)).Perm
        (Int.ofNat p :: valsList p 0 0 others.length) := by
      refine (hsplit.map _).trans ?_
      rw [List.map_cons]
      have hfit : (loopOrd id p others 0 0 it).sortOrder = Int.ofNat p := by
        rw [loopOrd_moved id p others 0 0 it hitid]
        rw [if_pos ⟨by omega, by omega⟩]
        simp
      rw [hfit]
      refine List.Perm.cons _ ?_
      rw [← hvals]
      exact (hpermO.symm.map _)
    unfold denseOrders
    rw [hchain.length_eq, List.length_cons, valsList_length]
    exact hchain.trans (perm_vals_range p others.length hple)
  · rw [if_pos (by omega)]
    rw [show (0 + others.length + if 0 ≤ p ∧ p < 0 + others.length then 1 else 0) =
      others.length from by rw [if_neg (by omega)]; omega]
    rw [setOrder_eq_map, List.map_map]
    rw [incompleteOrders_map items it.sectionId
      (setFun id (Int.ofNat others.length) ∘ loopOrd id p others 0 0)
      (fun x => ⟨by
        rw [Function.comp_apply]
        rw [(setFun_fields id (Int.ofNat others.length) _).2.1]
        exact (loopOrd_fields id p others 0 0 x).2.1, by
        rw [Function.comp_apply]
        rw [(setFun_fields id (Int.ofNat others.length) _).2.2]
        exact (loopOrd_fields id p others 0 0 x).2.2⟩)]
    have hchain : ((items.filter
        (fun r => r.sectionId == it.sectionId && !r.completed)).map
        (fun x => ((setFun id (Int.ofNat others.length) ∘ loopOrd id p others 0 0) x).sortOrder)).Perm
        (Int.ofNat p :: valsList p 0 0 others.length) := by
      refine (hsplit.map _).trans ?_
      rw [List.map_cons]
      have hfit : ((setFun id (Int.ofNat others.length) ∘ loopOrd id p others 0 0) it).sortOrder =
          Int.ofNat p := by
        rw [Function.comp_apply]
        rw [loopOrd_moved id p others 0 0 it hitid]
        rw [if_neg (by omega)]
        rw [setFun_eq_of_id id (Int.ofNat others.length) it hitid]
        have : p = others.length := by omega
        rw [this]
      rw [hfit]
      refine List.Perm.cons _ ?_
      have htail : (items.filter
          (fun r => r.sectionId == it.sectionId && !r.completed && r.id != id)).map
          (fun x => ((setFun id (Int.ofNat others.length) ∘ loopOrd id p others 0 0) x).sortOrder) =
          (items.filter
          (fun r => r.sectionId == it.sectionId && !r.completed && r.id != id)).map
          (fun x => (loopOrd id p others 0 0 x).sortOrder) := by
        apply List.map_congr_left
        intro x hx
        rw [Function.comp_apply]
        have hxid : (loopOrd id p others 0 0 x).id = x.id :=
          (loopOrd_fields id p others 0 0 x).1
        have hxne : x.id ≠ id := by
          intro hc
          have := (List.mem_filter.mp hx).2
          simp only [Bool.and_eq_true, bne_iff_ne] at this
          exact this.2 hc
        rw [setFun_eq_of_ne id (Int.ofNat others.length) _ (by rw [hxid]; exact hxne)]
      rw [htail, ← hvals]
      exact (hpermO.symm.map _)
    unfold denseOrders
    rw [hchain.length_eq, List.length_cons, valsList_length]
    exact hchain.trans (perm_vals_range p others.length hple)

/-- C1 (amended): after a same-section reorder of an incomplete item, the
incomplete items of that section carry exactly the sort orders
`0 .. n-1`, with no gaps and no duplicates. -/
theorem c1_reorder_dense (items : List IRow) (id tp : Int) (it : IRow)
    (hfind : items.find? (fun r => r.id == id) = some it)
    (hnd : (items.map (·.id)).Nodup)
    (hinc : it.completed = false) :
    ∃ st, reorderItemInSection items id tp = some st ∧
      denseOrders (incompleteOrders st it.sectionId) := by
  have hitmem : it ∈ items := List.mem_of_find?_eq_some hfind
  have hitbeq : (it.id == id) = true :=
    @List.find?_some IRow (fun r => r.id == id) it items hfind
  have hitid : it.id = id := beq_iff_eq.mp hitbeq
  simp only [reorderItemInSection, hfind]
  refine ⟨_, rfl, ?_⟩
  apply reorder_dense_aux items id it _ _ hitmem hitid hinc hnd rfl
  unfold reorderOthers
  split_ifs <;> simp only [Int.ofNat_eq_coe] at * <;> omega

/-- C1 witness: reordering item 3 (orders 0, 5, 9 in section 1) to the
front leaves section 1 densely renumbered. -/
theorem c1_reorder_dense_witness :
    ∃ st, reorderItemInSection [⟨1, 1, false, 0⟩, ⟨2, 1, false, 5⟩, ⟨3, 1, false, 9⟩] 3 0 =
      some st ∧ denseOrders (incompleteOrders st 1) :=
  c1_reorder_dense [⟨1, 1, false, 0⟩, ⟨2, 1, false, 5⟩, ⟨3, 1, false, 9⟩] 3 0
    ⟨3, 1, false, 9⟩ (by decide) (by decide) rfl

/-! ### C9: the distance matrix computes the minimum edit cost -/

/-- The classic edit-distance recurrence on character lists. -/
def ed : List Char → List Char → Nat
  | [], ys => ys.length
  | _ :: xs, [] => xs.length + 1
  | x :: xs, y :: ys =>
    min (ed xs (y :: ys) + 1) (min (ed (x :: xs) ys + 1) (ed xs ys + levCost x y))
termination_by xs ys => xs.length + ys.length

theorem ed_nil_left (ys : List Char) : ed [] ys = ys.length := by
  simp [ed]

theorem ed_cons_nil (x : Char) (xs : List Char) : ed (x :: xs) [] = xs.length + 1 := by
  simp [ed]

theorem ed_nil_right (xs : List Char) : ed xs [] = xs.length := by
  cases xs with
  | nil => simp [ed]
  | cons x xs => rw [ed_cons_nil, List.length_cons]

theorem ed_cons_cons (x : Char) (xs : List Char) (y : Char) (ys : List Char) :
    ed (x :: xs) (y :: ys) =
      min (ed xs (y :: ys) + 1) (min (ed (x :: xs) ys + 1) (ed xs ys + levCost x y)) := by
  simp [ed]

/-- An edit alignment between two strings with its total cost: matched
characters are free, substitutions, deletions and insertions cost one
each. -/
inductive Edits : List Char → List Char → Nat → Prop
  | nil : Edits [] [] 0
  | keep (a : Char) {xs ys : List Char} {n : Nat} :
      Edits xs ys n → Edits (a :: xs) (a :: ys) n
  | subst (a b : Char) {xs ys : List Char} {n : Nat} :
      Edits xs ys n → Edits (a :: xs) (b :: ys) (n + 1)
  | del (a : Char) {xs ys : List Char} {n : Nat} :
      Edits xs ys n → Edits (a :: xs) ys (n + 1)
  | ins (b : Char) {xs ys : List Char} {n : Nat} :
      Edits xs ys n → Edits xs (b :: ys) (n + 1)

theorem Edits.append_keep {xs ys : List Char} {n : Nat} (c : Char)
    (h : Edits xs ys n) : Edits (xs ++ [c]) (ys ++ [c]) n := by
  induction h with
  | nil => exact Edits.keep c Edits.nil
  | keep a _ ih => exact Edits.keep a ih
  | subst a b _ ih => exact Edits.subst a b ih
  | del a _ ih => exact Edits.del a ih
  | ins b _ ih => exact Edits.ins b ih

theorem Edits.append_subst {xs ys : List Char} {n : Nat} (c d : Char)
    (h : Edits xs ys n) : Edits (xs ++ [c]) (ys ++ [d]) (n + 1) := by
  induction h with
  | nil => exact Edits.subst c d Edits.nil
  | keep a _ ih => exact Edits.keep a ih
  | subst a b _ ih => exact Edits.subst a b ih
  | del a _ ih => exact Edits.del a ih
  | ins b _ ih => exact Edits.ins b ih

theorem Edits.append_del {xs ys : List Char} {n : Nat} (c : Char)
    (h : Edits xs ys n) : Edits (xs ++ [c]) ys (n + 1) := by
  induction h with
  | nil => exact Edits.del c Edits.nil
  | keep a _ ih => exact Edits.keep a ih
  | subst a b _ ih => exact Edits.subst a b ih
  | del a _ ih => exact Edits.del a ih
  | ins b _ ih => exact Edits.ins b ih

theorem Edits.append_ins {xs ys : List Char} {n : Nat} (d : Char)
    (h : Edits xs ys n) : Edits xs (ys ++ [d]) (n + 1) := by
  induction h with
  | nil => exact Edits.ins d Edits.nil
  | keep a _ ih => exact Edits.keep a ih
  | subst a b _ ih => exact Edits.subst a b ih
  | del a _ ih => exact Edits.del a ih
  | ins b _ ih => exact Edits.ins b ih

theorem Edits.rev {xs ys : List Char} {n : Nat} (h : Edits xs ys n) :
    Edits xs.reverse ys.reverse n := by
  induction h with
  | nil => exact Edits.nil
  | keep a _ ih =>
    rw [List.reverse_cons, List.reverse_cons]
    exact ih.append_keep a
  | subst a b _ ih =>
    rw [List.reverse_cons, List.reverse_cons]
    exact ih.append_subst a b
  | del a _ ih =>
    rw [List.reverse_cons]
    exact ih.append_del a
  | ins b _ ih =>
    rw [List.reverse_cons]
    exact ih.append_ins b

theorem edits_nil_right : ∀ xs : List Char, Edits xs [] xs.length := by
  intro xs
  induction xs with
  | nil => exact Edits.nil
  | cons x xs ih => exact Edits.del x ih

theorem edits_nil_left : ∀ ys : List Char, Edits [] ys ys.length := by
  intro ys
  induction ys with
  | nil => exact Edits.nil
  | cons y ys ih => exact Edits.ins y ih

/-- The recurrence value is attainable by an alignment. -/
theorem edits_ed : ∀ xs ys : List Char, Edits xs ys (ed xs ys) := by
  intro xs
  induction xs with
  | nil =>
    intro ys
    rw [ed_nil_left]
    exact edits_nil_left ys
  | cons x xs ihx =>
    intro ys
    induction ys with
    | nil =>
      rw [ed_cons_nil]
      exact Edits.del x (edits_nil_right xs)
    | cons y ys ihy =>
      rw [ed_cons_cons]
      have h1 : Edits (x :: xs) (y :: ys) (ed xs (y :: ys) + 1) :=
        Edits.del x (ihx (y :: ys))
      have h2 : Edits (x :: xs) (y :: ys) (ed (x :: xs) ys + 1) :=
        Edits.ins y ihy
      have h3 : Edits (x :: xs) (y :: ys) (ed xs ys + levCost x y) := by
        by_cases hxy : x = y
        · rw [show levCost x y = 0 from by simp [levCost, hxy], Nat.add_zero]
          rw [hxy]
          exact Edits.keep y (ihx ys)
        · rw [show levCost x y = 1 from by simp [levCost, hxy]]
          exact Edits.subst x y (ihx ys)
      rcases min_choice (ed xs (y :: ys) + 1)
          (min (ed (x :: xs) ys + 1) (ed xs ys + levCost x y)) with h | h
      · rw [h]; exact h1
      · rw [h]
        rcases min_choice (ed (x :: xs) ys + 1) (ed xs ys + levCost x y) with h' | h'
        · rw [h']; exact h2
        · rw [h']; exact h3

/-- No alignment beats the recurrence value. -/
theorem ed_le_edits : ∀ {xs ys : List Char} {n : Nat}, Edits xs ys n → ed xs ys ≤ n := by
  intro xs ys n h
  induction h with
  | nil => rw [ed_nil_left]; exact Nat.le_refl 0
  | keep a h ih =>
    rename_i xs' ys' n'
    rw [ed_cons_cons]
    have h0 : levCost a a = 0 := by simp [levCost]
    have hm : min (ed xs' (a :: ys') + 1)
        (min (ed (a :: xs') ys' + 1) (ed xs' ys' + levCost a a)) ≤
        ed xs' ys' + levCost a a :=
      le_trans (min_le_right _ _) (min_le_right _ _)
    omega
  | subst a b h ih =>
    rename_i xs' ys' n'
    rw [ed_cons_cons]
    have hc : levCost a b ≤ 1 := by unfold levCost; split <;> omega
    have hm : min (ed xs' (b :: ys') + 1)
        (min (ed (a :: xs') ys' + 1) (ed xs' ys' + levCost a b)) ≤
        ed xs' ys' + levCost a b :=
      le_trans (min_le_right _ _) (min_le_right _ _)
    omega
  | del a h ih =>
    rename_i xs' ys' n'
    cases ys' with
    | nil =>
      rw [ed_cons_nil]
      rw [ed_nil_right] at ih
      omega
    | cons y ys2 =>
      rw [ed_cons_cons]
      have hm : min (ed xs' (y :: ys2) + 1)
          (min (ed (a :: xs') ys2 + 1) (ed xs' ys2 + levCost a y)) ≤
          ed xs' (y :: ys2) + 1 := min_le_left _ _
      omega
  | ins b h ih =>
    rename_i xs' ys' n'
    cases xs' with
    | nil =>
      rw [ed_nil_left, List.length_cons]
      rw [ed_nil_left] at ih
      omega
    | cons x xs2 =>
      rw [ed_cons_cons]
      have hm : min (ed xs2 (b :: ys') + 1)
          (min (ed (x :: xs2) ys' + 1) (ed xs2 ys' + levCost x b)) ≤
          ed (x :: xs2) ys' + 1 :=
        le_trans (min_le_right _ _) (min_le_left _ _)
      omega

/-- The matrix row entries beyond the columns already consumed: `ra` is the
reversed consumed prefix of the first string, `rb` that of the second; each
further column extends `rb` by one character. -/
def edRowAux (ra : List Char) : List Char → List Char → List Nat
  | _, [] => []
  | rb, y :: ys => ed ra (y :: rb) :: edRowAux ra (y :: rb) ys

/-- A full matrix row for first-string reversed prefix `ra`: the boundary
entry followed by the entries for every prefix of `b`. -/
def edRow (ra b : List Char) : List Nat := ed ra [] :: edRowAux ra [] b

theorem levAux_spec (x : Char) : ∀ (ys rb ra : List Char),
    levAux x ys (edRowAux ra rb ys) (ed ra rb) (ed (x :: ra) rb) =
      edRowAux (x :: ra) rb ys := by
  intro ys
  induction ys with
  | nil => intro rb ra; rfl
  | cons y ys ih =>
    intro rb ra
    simp only [edRowAux, levAux]
    rw [← ed_cons_cons x ra y rb]
    rw [ih (y :: rb) ra]

theorem nextRow_spec (x : Char) (b ra : List Char) :
    nextRow x b (edRow ra b) (ra.length + 1) = edRow (x :: ra) b := by
  simp only [nextRow, edRow]
  have h1 : ed (x :: ra) [] = ra.length + 1 := by
    rw [ed_nil_right, List.length_cons]
  rw [← h1]
  rw [levAux_spec x b [] ra]

theorem levRows_spec (b : List Char) : ∀ (xs ra : List Char),
    levRows b xs (edRow ra b) ra.length = edRow (xs.reverse ++ ra) b := by
  intro xs
  induction xs with
  | nil => intro ra; simp [levRows]
  | cons x xs ih =>
    intro ra
    simp only [levRows]
    rw [nextRow_spec]
    have h2 : ra.length + 1 = (x :: ra).length := (List.length_cons x ra).symm
    rw [h2, ih (x :: ra)]
    simp [List.reverse_cons, List.append_assoc]

theorem edRowAux_nil : ∀ (ys rb : List Char),
    edRowAux [] rb ys = List.range' (rb.length + 1) ys.length := by
  intro ys
  induction ys with
  | nil => intro rb; rfl
  | cons y ys ih =>
    intro rb
    simp only [edRowAux, ed_nil_left, List.length_cons]
    rw [ih (y :: rb)]
    simp [List.range'_succ]

theorem edRow_nil (b : List Char) : edRow [] b = List.range (b.length + 1) := by
  simp only [edRow, ed_nil_left, List.length_nil, edRowAux_nil]
  rw [List.range_eq_range', List.range'_succ]

theorem edRowAux_getD_last : ∀ (ys : List Char) (y : Char) (rb ra : List Char),
    (edRowAux ra rb (y :: ys)).getD ys.length 0 = ed ra (ys.reverse ++ (y :: rb)) := by
  intro ys
  induction ys with
  | nil => intro y rb ra; rfl
  | cons z zs ih =>
    intro y rb ra
    have hstep : edRowAux ra rb (y :: z :: zs) =
        ed ra (y :: rb) :: edRowAux ra (y :: rb) (z :: zs) := rfl
    rw [hstep, List.length_cons, List.getD_cons_succ]
    rw [ih z (y :: rb) ra]
    simp [List.reverse_cons, List.append_assoc]

theorem lev_eq_ed_rev (s1 s2 : List Char) :
    levenshteinDistance s1 s2 = ed (toLowerStr s1).reverse (toLowerStr s2).reverse := by
  have hup : ∀ a b : List Char,
      (levRows b a (List.range (b.length + 1)) 0).getD b.length 0 = ed a.reverse b.reverse := by
    intro a b
    have h2 : levRows b a (edRow [] b) 0 = edRow (a.reverse ++ []) b :=
      levRows_spec b a []
    rw [← edRow_nil b, h2, List.append_nil]
    cases hb : b with
    | nil =>
      simp only [edRow, List.length_nil, List.getD_cons_zero, List.reverse_nil]
    | cons y ys =>
      have hstep : edRow a.reverse (y :: ys) =
          ed a.reverse [] :: edRowAux a.reverse [] (y :: ys) := rfl
      rw [hstep, List.length_cons, List.getD_cons_succ]
      rw [edRowAux_getD_last ys y [] a.reverse]
      simp [List.reverse_cons]
  unfold levenshteinDistance
  by_cases h1 : (toLowerStr s1).isEmpty = true
  · have ha : toLowerStr s1 = [] := by
      cases hc : toLowerStr s1 with
      | nil => rfl
      | cons c cs => rw [hc] at h1; simp [List.isEmpty] at h1
    simp [h1, ha, ed_nil_left]
  · by_cases h2 : (toLowerStr s2).isEmpty = true
    · have hb : toLowerStr s2 = [] := by
        cases hc : toLowerStr s2 with
        | nil => rfl
        | cons c cs => rw [hc] at h2; simp [List.isEmpty] at h2
      simp [h1, h2, hb, ed_nil_right]
    · simp only [if_neg h1, if_neg h2]
      exact hup (toLowerStr s1) (toLowerStr s2)

/-- C9: the edit-distance routine computes exactly the minimum number of
single-character insertions, deletions and substitutions turning the
lower-cased first string into the lower-cased second string: the computed
value is attained by some edit alignment, and no alignment costs less. -/
theorem c9_levenshtein_min_edits (s1 s2 : List Char) :
    Edits (toLowerStr s1) (toLowerStr s2) (levenshteinDistance s1 s2) ∧
    ∀ n : Nat, Edits (toLowerStr s1) (toLowerStr s2) n →
      levenshteinDistance s1 s2 ≤ n := by
  constructor
  · rw [lev_eq_ed_rev]
    have h := (edits_ed (toLowerStr s1).reverse (toLowerStr s2).reverse).rev
    rwa [List.reverse_reverse, List.reverse_reverse] at h
  · intro n hn
    rw [lev_eq_ed_rev]
    exact ed_le_edits hn.rev

/-- Witness for C9 at a concrete input: a one-substitution alignment from
"Milk" to "silk" caps the computed distance at 1. -/
theorem c9_levenshtein_witness :
    levenshteinDistance (chars "Milk") (chars "silk") ≤ 1 := by
  have hm : toLowerStr (chars "Milk") = ['m', 'i', 'l', 'k'] := by decide
  have hs : toLowerStr (chars "silk") = ['s', 'i', 'l', 'k'] := by decide
  exact (c9_levenshtein_min_edits (chars "Milk") (chars "silk")).2 1
    (by
      rw [hm, hs]
      exact Edits.subst 'm' 's' (Edits.keep 'i' (Edits.keep 'l'
        (Edits.keep 'k' Edits.nil))))
